import Mathlib

/-!
# Compile-Time-Execution-Structs: kernels and pipelines

A shallow embedding of `include/ctes/kernel.h`, `include/ctes/pipeline.h` and of the
kernels of `test/utest_pipeline.cpp`.

The development has two layers.

* The *run-time layer* models `Pipeline::execute` / `Pipeline::executeImpl`.  A C++
  reference or non-null pointer is an address of type `α`; a pointer is an `Option α`
  (`none` is `nullptr`); everything a kernel can read or write (the caller's input
  object and the kernel sub-objects of the pipeline) is a memory of type `σ`.  Both are
  parameters, so the theorems hold for every stage behaviour.
* The *compile-time layer* models the trait `is_kernel`, the member types of `Pipeline`
  and its `static_assert`s over descriptors of C++ types.

A third part models programs that construct several pipelines: the constructor of
`Pipeline`, and a memory in which every pipeline has its own base sub-objects.
-/

namespace ctes

/-! ## Run-time layer: `IKernel::operator()` and `Pipeline::execute` -/

/-- A kernel object seen through `IKernel::operator()(input_t& input_data)`
(kernel.h:40): given the address of the input and the current memory it returns a
pointer (`none` is `nullptr`, the failure marker) and the memory it leaves behind. -/
structure Kernel (σ α : Type) where
  call : α → σ → Option α × σ

/-- The local state of one run of `Pipeline::executeImpl`: the memory, the local tuple
`data_ptrs` (pipeline.h:87), and a ghost log `calls` of the stage invocations made so
far (stage index and the address the stage was invoked on), oldest first. -/
structure Frame (σ α : Type) where
  mem : σ
  data_ptrs : List (Option α)
  calls : List (Nat × α)

namespace Pipeline

/-- One operand of the fold expression of pipeline.h:90,
`std::get<i + 1>(data_ptrs) = static_cast<Kernels&>(*this)(*std::get<i>(data_ptrs))`,
converted to `bool`.  Dereferencing slot `i` when it is null (or absent) is undefined
behaviour, modelled by `none`.  Otherwise kernel `k` is invoked on the referenced
object, its result is stored in slot `i + 1`, and the operand is `true` exactly when
that result is non-null. -/
def assign {σ α : Type} (s : Frame σ α) (i : Nat) (k : Kernel σ α) :
    Option (Bool × Frame σ α) :=
  match s.data_ptrs[i]? with
  | some (some a) =>
    let r := k.call a s.mem
    some (r.1.isSome,
      { mem := r.2, data_ptrs := s.data_ptrs.set (i + 1) r.1, calls := s.calls ++ [(i, a)] })
  | _ => none

/-- The fold expression `(E_i && ...)` of pipeline.h:90 over the packs `i...` and
`Kernels...`, expanded in lockstep: `E_0 && (E_1 && (... && E_{n-1}))`.  The operands
are evaluated left to right and evaluation stops at the first operand that is `false`;
the fold over an empty pack is `true`. -/
def foldAnd {σ α : Type} : List (Nat × Kernel σ α) → Frame σ α → Option (Bool × Frame σ α)
  | [], s => some (true, s)
  | (i, k) :: rest, s =>
    match assign s i k with
    | none => none
    | some (false, s') => some (false, s')
    | some (true, s') => foldAnd rest s'

/-- What a caller of `execute` can observe afterwards: the returned pointer `ret`, the
memory `mem`, and (ghost) the final contents of the local tuple and the invocation
log. -/
structure Outcome (σ α : Type) where
  ret : Option α
  mem : σ
  data_ptrs : List (Option α)
  calls : List (Nat × α)

/-- The member `Pipeline::executeImpl(std::index_sequence<i...>, input_t& input_data)`
(pipeline.h:84-93).  The tuple `data_ptrs` has one slot per index plus one and is
value-initialised (all slots null) by the default constructor of `std::tuple`; slot 0
receives `&input_data`; the fold runs; slot `num_steps` is returned.  The result is
`none` when the run has undefined behaviour, or when the tuple has no slot `num_steps`
(which `std::get` rejects). -/
def executeImpl {σ α : Type} (kernels : List (Kernel σ α)) (is : List Nat)
    (input_data : α) (mem : σ) : Option (Outcome σ α) :=
  let num_steps := kernels.length
  let data_ptrs : List (Option α) := List.replicate (is.length + 1) none
  let data_ptrs := data_ptrs.set 0 (some input_data)
  match foldAnd (is.zip kernels) { mem := mem, data_ptrs := data_ptrs, calls := [] } with
  | none => none
  | some (_, s) =>
    match s.data_ptrs[num_steps]? with
    | none => none
    | some p => some { ret := p, mem := s.mem, data_ptrs := s.data_ptrs, calls := s.calls }

/-- The member `Pipeline::execute(input_t& input_data)` (pipeline.h:64-67): `executeImpl` on
`std::make_index_sequence<num_steps>()`, the indices `0, ..., num_steps - 1`. -/
def execute {σ α : Type} (kernels : List (Kernel σ α)) (input_data : α) (mem : σ) :
    Option (Outcome σ α) :=
  executeImpl kernels (List.range kernels.length) input_data mem

end Pipeline

/-- The execution algorithm in the words of the specification (section 4.3): keep a
current value reference, initialised to the supplied input; for each stage in declared
order invoke it on the current value; on failure abort and return failure; on success
make the returned reference the current value; after the last stage return the current
value.  `i` is the position of the next stage and `calls` the invocation log. -/
def specLoop {σ α : Type} :
    List (Kernel σ α) → Nat → α → σ → List (Nat × α) → Option α × σ × List (Nat × α)
  | [], _, cur, mem, calls => (some cur, mem, calls)
  | k :: ks, i, cur, mem, calls =>
    match k.call cur mem with
    | (none, mem') => (none, mem', calls ++ [(i, cur)])
    | (some out, mem') => specLoop ks (i + 1) out mem' (calls ++ [(i, cur)])

/-- A stage is a deterministic function of its input and of the state it can see, with
respect to an equivalence `R` of (pointer, memory) pairs and an equivalence `Q` of
memories: invoked on equivalent pairs it fails both times, leaving `Q`-equivalent
memories, or succeeds both times, returning `R`-equivalent pairs. -/
def Deterministic {σ α : Type} (R : α × σ → α × σ → Prop) (Q : σ → σ → Prop)
    (k : Kernel σ α) : Prop :=
  ∀ a m a' m', R (a, m) (a', m') →
    match k.call a m, k.call a' m' with
    | (some b, n), (some b', n') => R (b, n) (b', n')
    | (none, n), (none, n') => Q n n'
    | _, _ => False

/-- Two outcomes of `execute` are equivalent: both are failures with `Q`-equivalent
memories, or both are successes with `R`-equivalent results. -/
def Pipeline.Outcome.Equiv {σ α : Type} (R : α × σ → α × σ → Prop) (Q : σ → σ → Prop)
    (o o' : Pipeline.Outcome σ α) : Prop :=
  match o.ret, o'.ret with
  | some b, some b' => R (b, o.mem) (b', o'.mem)
  | none, none => Q o.mem o'.mem
  | _, _ => False

/-! ## The kernels of `test/utest_pipeline.cpp`

The objects of the tests are the caller's `std::vector<int> v` and the member
`output_data_` of the `KernelSumOfStdVec` sub-object of the pipeline.  `int` is modelled
by `Int`: signed overflow is undefined behaviour in C++ and is outside the model. -/

/-- The addresses of the two objects of the tests. -/
inductive Addr
  | v
  | output_data_
  deriving DecidableEq, Repr

/-- The memory of the tests: the contents of the caller's vector and of
`KernelSumOfStdVec::output_data_`, which no constructor of the class sets: `none` stands
for an indeterminate value (a default-initialised object), `some 0` is what the
value-initialisation by `{}` leaves, and `some n` what a run has stored. -/
structure Mem where
  v : List Int
  output_data_ : Option Int
  deriving DecidableEq, Repr

/-- The `int` stored at an address (`*res` in the tests), if there is one. -/
def Mem.readInt (mem : Mem) : Addr → Option Int
  | Addr.output_data_ => mem.output_data_
  | Addr.v => none

/-- The class `KernelDecStdVectorElementsByValue` (utest_pipeline.cpp:22-43), holding
`value_`: `for (auto& x : input_data) x -= value_; return &input_data;`.  Its parameter is
a `std::vector<int>&`, so the C++ type system only lets it be invoked on the address of
a vector; the other branch makes the model total and is never taken by a pipeline
whose types are continuous. -/
def KernelDecStdVectorElementsByValue (value_ : Int) : Kernel Mem Addr where
  call := fun input_data mem =>
    match input_data with
    | Addr.v => (some Addr.v, { mem with v := mem.v.map (fun x => x - value_) })
    | Addr.output_data_ => (none, mem)

/-- The class `KernelFilterAllStdVectorElementsNonNegative` (utest_pipeline.cpp:45-54):
`return std::all_of(..., x >= 0) ? &input_data : nullptr;`. -/
def KernelFilterAllStdVectorElementsNonNegative : Kernel Mem Addr where
  call := fun input_data mem =>
    match input_data with
    | Addr.v => (if mem.v.all (fun x => decide (x ≥ 0)) then some Addr.v else none, mem)
    | Addr.output_data_ => (none, mem)

/-- The class `KernelSumOfStdVec` (utest_pipeline.cpp:56-69):
`output_data_ = std::accumulate(begin, end, 0); return &output_data_;`. -/
def KernelSumOfStdVec : Kernel Mem Addr where
  call := fun input_data mem =>
    match input_data with
    | Addr.v =>
      (some Addr.output_data_,
        { mem with output_data_ := some (mem.v.foldl (fun acc x => acc + x) 0) })
    | Addr.output_data_ => (none, mem)

/-- The pipeline of both tests,
`Pipeline<KernelDecStdVectorElementsByValue, KernelFilterAllStdVectorElementsNonNegative,
KernelSumOfStdVec> pipeline({ c }, {}, {})` (the tests take `c = 2`). -/
def testPipeline (c : Int) : List (Kernel Mem Addr) :=
  [KernelDecStdVectorElementsByValue c, KernelFilterAllStdVectorElementsNonNegative,
   KernelSumOfStdVec]

/-! ## Compile-time layer: `is_kernel` and the checks of `Pipeline`

A C++ type is identified by its name.  A descriptor records what the traits of
kernel.h and pipeline.h can observe of a type, and what the compiler needs to know of a
class that is used as a base class of `Pipeline` (pipeline.h:28) and initialised by its
constructor (pipeline.h:52-53). -/

/-- The name of a C++ type. -/
abbrev CppType := String

/-- The observable part of a type `T`: its name; the member types `T::input_t` and
`T::output_t` (`none` when `typename T::input_t` is not well-formed: no such member, or
not a class); the pairs `(I, O)` for which `IKernel<I, O>` is `T` itself or a base
class of `T`, that is for which `std::is_base_of_v<IKernel<I, O>, T>` holds; the class
that a base-specifier naming `T` denotes, which is `T` without its cv-qualifiers
(`std::remove_cv_t<T>`); whether `T` is abstract (`std::is_abstract_v<T>`: it has a pure
virtual function without a final overrider); whether `T` is declared `final`
(`std::is_final_v<T>`); and whether a base sub-object of type `T` can be initialised from
`std::move` of an object of type `T` and destroyed again (a usable move or copy
constructor and destructor). -/
structure TypeDesc where
  name : CppType
  input_t : Option CppType
  output_t : Option CppType
  ikernel_bases : List (CppType × CppType)
  class_name : CppType
  is_abstract : Bool
  is_final : Bool
  is_movable : Bool
  deriving DecidableEq, Repr

/-- The class template `IKernel<InputType, OutputType>` (kernel.h:25-41): it declares
`input_t = InputType` and `output_t = OutputType`, and is its own only `IKernel`.  Its
`operator()` is pure virtual (kernel.h:40), so it is abstract; it is not `final`, and
its copy and move constructors and its destructor are the implicit ones. -/
def IKernel (InputType OutputType : CppType) : TypeDesc :=
  { name := "IKernel<" ++ InputType ++ ", " ++ OutputType ++ ">",
    input_t := some InputType,
    output_t := some OutputType,
    ikernel_bases := [(InputType, OutputType)],
    class_name := "IKernel<" ++ InputType ++ ", " ++ OutputType ++ ">",
    is_abstract := true,
    is_final := false,
    is_movable := true }

/-- Modelled from the spec: the template `KernelBase` that the test kernels derive from
(utest_pipeline.cpp:22, 45, 56) is declared nowhere in the sources.  It is taken to be
the kernel capability of the specification, `IKernel`, whose second parameter
defaults to the first (kernel.h:25-26). -/
def KernelBase (InputType : CppType) (OutputType : Option CppType) : TypeDesc :=
  IKernel InputType (OutputType.getD InputType)

/-- A class `class name : public base` written like the test kernels
(utest_pipeline.cpp:22-69): it declares no member named `input_t` or `output_t` of its
own, so it inherits the member types and the base classes of `base`; it overrides
`operator()`, so it is not abstract; it is not `final`; and its copy and move
constructors and its destructor are the implicit ones. -/
def publicDerived (name : CppType) (base : TypeDesc) : TypeDesc :=
  { name := name, input_t := base.input_t, output_t := base.output_t,
    ikernel_bases := base.ikernel_bases,
    class_name := name, is_abstract := false, is_final := false, is_movable := true }

/-- A type without member types and without base classes, such as `int`. -/
def plainType (name : CppType) : TypeDesc :=
  { name := name, input_t := none, output_t := none, ikernel_bases := [],
    class_name := name, is_abstract := false, is_final := false, is_movable := true }

/-- The alias template `std::void_t<Ts...>`: `void` when every argument is well-formed,
a substitution failure (`none`) otherwise. -/
def void_t (args : List (Option CppType)) : Option CppType :=
  if args.all Option.isSome then some "void" else none

/-- The trait `std::is_base_of_v<IKernel<I, O>, T>`. -/
def is_base_of_IKernel (I O : CppType) (T : TypeDesc) : Bool :=
  decide ((I, O) ∈ T.ikernel_bases)

/-- The trait `is_kernel<T>::value` (kernel.h:43-53).  The partial specialisation
`is_kernel<T, std::void_t<typename T::input_t, typename T::output_t>>` is selected when
its second argument is well-formed, and its value is
`std::is_base_of_v<IKernel<typename T::input_t, typename T::output_t>, T>`; otherwise
the primary template, derived from `std::false_type`, is used. -/
def is_kernel (T : TypeDesc) : Bool :=
  match void_t [T.input_t, T.output_t], T.input_t, T.output_t with
  | some _, some I, some O => is_base_of_IKernel I O T
  | _, _, _ => false

/-- The variable template `is_kernel_v<T>` (kernel.h:55-57). -/
def is_kernel_v (T : TypeDesc) : Bool := is_kernel T

/-- The trait `std::is_same_v<A, B>` on two types that may be ill-formed; naming an
ill-formed type is an error, so the assertion using it does not hold. -/
def is_same_v : Option CppType → Option CppType → Bool
  | some A, some B => decide (A = B)
  | _, _ => false

namespace Pipeline

/-- The constant `num_steps = sizeof...(Kernels)` (pipeline.h:44). -/
def num_steps (Kernels : List TypeDesc) : Nat := Kernels.length

/-- The alias `nth_input_t<n>`, the member `input_t` of
`std::tuple_element_t<n, std::tuple<Kernels...>>` (pipeline.h:34-35). -/
def nth_input_t (Kernels : List TypeDesc) (n : Nat) : Option CppType :=
  (Kernels[n]?).bind TypeDesc.input_t

/-- The alias `nth_output_t<n>` (pipeline.h:37-38). -/
def nth_output_t (Kernels : List TypeDesc) (n : Nat) : Option CppType :=
  (Kernels[n]?).bind TypeDesc.output_t

/-- The member type `input_t = nth_input_t<0>` (pipeline.h:47). -/
def input_t (Kernels : List TypeDesc) : Option CppType := nth_input_t Kernels 0

/-- The member type `output_t = nth_output_t<num_steps - 1>` (pipeline.h:48).  The
subtraction is on `size_t`; it is only reached when `num_steps > 0` has been asserted
(pipeline.h:45), so it does not wrap. -/
def output_t (Kernels : List TypeDesc) : Option CppType :=
  nth_output_t Kernels (num_steps Kernels - 1)

/-- The check `staticAssertTypeContinuity(std::index_sequence<i...>)`
(pipeline.h:72-76): the fold `(std::is_same_v<nth_output_t<i>, nth_input_t<i + 1>> && ...)`
over the given indices. -/
def staticAssertTypeContinuity (Kernels : List TypeDesc) (is : List Nat) : Bool :=
  is.all (fun i => is_same_v (nth_output_t Kernels i) (nth_input_t Kernels (i + 1)))

/-- The three assertions of `Pipeline` all hold: `(is_kernel_v<Kernels> && ...)`
(pipeline.h:42), `num_steps > 0` (pipeline.h:45), and
`staticAssertTypeContinuity(std::make_index_sequence<num_steps - 1>())`
(pipeline.h:55, 75). -/
def static_asserts_hold (Kernels : List TypeDesc) : Bool :=
  Kernels.all is_kernel_v && decide (num_steps Kernels > 0) &&
    staticAssertTypeContinuity Kernels (List.range (num_steps Kernels - 1))

/-- The class `Pipeline<Kernels...>` can be instantiated: its base-specifier list
`public Kernels...` (pipeline.h:28) names no class twice (C++ forbids a class from being
a direct base more than once; cv-qualifiers of a base-specifier are ignored) and names no
`final` class, and the two assertions of the class body hold,
`(is_kernel_v<Kernels> && ...)` (pipeline.h:42) and `num_steps > 0` (pipeline.h:45). -/
def instantiable (Kernels : List TypeDesc) : Bool :=
  decide ((Kernels.map TypeDesc.class_name).Nodup) &&
    Kernels.all (fun K => !K.is_final) &&
    Kernels.all is_kernel_v && decide (num_steps Kernels > 0)

/-- An instance of `Pipeline<Kernels...>` can be created: the class can be instantiated;
the body of its constructor (pipeline.h:52-56) compiles, that is
`staticAssertTypeContinuity(std::make_index_sequence<num_steps - 1>())` holds; its
mem-initialisers `Kernels(std::move(kernels))...` (pipeline.h:53) compile, that is every
stage class can be initialised from an rvalue of itself; and the class is not abstract,
that is no stage class is abstract (`Pipeline` declares no `operator()` of its own, so
it has the pure virtual functions its bases have).  The only other constructors are the
implicit copy and move constructors, which need an instance to start from. -/
def constructible (Kernels : List TypeDesc) : Bool :=
  instantiable Kernels &&
    staticAssertTypeContinuity Kernels (List.range (num_steps Kernels - 1)) &&
    Kernels.all TypeDesc.is_movable &&
    Kernels.all (fun K => !K.is_abstract)

/-- The class `Pipeline<Kernels...>` as a type: it declares `input_t` and `output_t`
(pipeline.h:47-48), and its base classes are its stages and their base classes
(pipeline.h:28).  It is abstract when one of its stages is, it is not `final`, and its
implicit copy and move constructors are usable when those of every stage are. -/
def type (Kernels : List TypeDesc) : TypeDesc :=
  { name := "Pipeline<" ++ ", ".intercalate (Kernels.map TypeDesc.name) ++ ">",
    input_t := input_t Kernels,
    output_t := output_t Kernels,
    ikernel_bases := Kernels.flatMap TypeDesc.ikernel_bases,
    class_name := "Pipeline<" ++ ", ".intercalate (Kernels.map TypeDesc.name) ++ ">",
    is_abstract := Kernels.any TypeDesc.is_abstract,
    is_final := false,
    is_movable := Kernels.all TypeDesc.is_movable }

/-- The declared signature of `output_t* execute(input_t& input_data)` (pipeline.h:64):
the type its parameter refers to and the type its result points to. -/
def execute_signature (Kernels : List TypeDesc) : Option CppType × Option CppType :=
  (input_t Kernels, output_t Kernels)

/-- The pointee types of the slots of the local tuple
`std::tuple<nth_input_t<i>*..., output_t*> data_ptrs` (pipeline.h:87). -/
def data_ptrs_types (Kernels : List TypeDesc) (is : List Nat) : List (Option CppType) :=
  is.map (nth_input_t Kernels) ++ [output_t Kernels]

end Pipeline

/-- The type of `KernelDecStdVectorElementsByValue` (utest_pipeline.cpp:22). -/
def KernelDecStdVectorElementsByValue.type : TypeDesc :=
  publicDerived "KernelDecStdVectorElementsByValue" (KernelBase "std::vector<int>" none)

/-- The type of `KernelFilterAllStdVectorElementsNonNegative` (utest_pipeline.cpp:45). -/
def KernelFilterAllStdVectorElementsNonNegative.type : TypeDesc :=
  publicDerived "KernelFilterAllStdVectorElementsNonNegative"
    (KernelBase "std::vector<int>" none)

/-- The type of `KernelSumOfStdVec` (utest_pipeline.cpp:56). -/
def KernelSumOfStdVec.type : TypeDesc :=
  publicDerived "KernelSumOfStdVec" (KernelBase "std::vector<int>" (some "int"))

/-! ## Programs that construct pipelines

A program may construct several pipelines.  Its memory holds the objects that are not
part of a pipeline (the caller's objects, among them the inputs) and, for every pipeline,
its base sub-objects: `Pipeline` has no data member and no static member of its own
(pipeline.h:27-94), so an instance consists of its kernels. -/

/-- The memory of a program that constructs pipelines: `outside` holds every object that
is not part of a pipeline; `pipelines` holds, for every pipeline constructed so far in
order of construction, the states of its base sub-objects in the order of
`Kernels...`. -/
structure World (ι κ : Type) where
  outside : ι
  pipelines : List (List κ)
  deriving DecidableEq, Repr

/-- What a pointer of such a program refers to: an object outside the pipelines, or (a
member of) base sub-object `j` of pipeline `p`. -/
inductive Ptr (β : Type)
  | outside (b : β)
  | member (p j : Nat)
  deriving DecidableEq, Repr

/-- The state of base sub-object `j` of pipeline `p`, if there is such an object. -/
def World.subobject {ι κ : Type} (w : World ι κ) (p j : Nat) : Option κ :=
  (w.pipelines[p]?).bind (fun bases => bases[j]?)

/-- The memory after a write of `s` to base sub-object `j` of pipeline `p`. -/
def World.setSubobject {ι κ : Type} (w : World ι κ) (p j : Nat) (s : κ) : World ι κ :=
  { w with pipelines := w.pipelines.set p ((w.pipelines.getD p []).set j s) }

/-- A kernel class at run time: its type; its move constructor, giving the state of the
new object from the state of the object moved from; and its `operator()`, invoked on
base sub-object `j` of pipeline `p` (the `this` pointer) with a reference to the input.
An `operator()` may read and write any part of the memory. -/
structure KernelClass (ι κ β : Type) where
  type : TypeDesc
  move : κ → κ
  call : Nat → Nat → Ptr β → World ι κ → Option (Ptr β) × World ι κ

namespace Pipeline

/-- The kernel objects `static_cast<Kernels&>(*this)` (pipeline.h:90) of pipeline `p`,
for the stages from position `j` on. -/
def base_subobjects_from {ι κ β : Type} :
    List (KernelClass ι κ β) → Nat → Nat → List (Kernel (World ι κ) (Ptr β))
  | [], _, _ => []
  | K :: Ks, p, j => { call := K.call p j } :: base_subobjects_from Ks p (j + 1)

/-- The kernel objects `static_cast<Kernels&>(*this)` (pipeline.h:90) of pipeline `p`, in
the order of `Kernels...`; `execute` of pipeline `p` is `execute` on this list. -/
def base_subobjects {ι κ β : Type} (Kernels : List (KernelClass ι κ β)) (p : Nat) :
    List (Kernel (World ι κ) (Ptr β)) :=
  base_subobjects_from Kernels p 0

end Pipeline

/-- The pointer that refers to pipeline `q` where `a` refers to pipeline `p`. -/
def Ptr.rename {β : Type} (p q : Nat) : Ptr β → Ptr β
  | Ptr.outside b => Ptr.outside b
  | Ptr.member p' j => if p' = p then Ptr.member q j else Ptr.member p' j

/-- The state of a kernel object of the tests. -/
inductive TestState
  | dec (value_ : Int)
  | filter
  | sum (output_data_ : Option Int)
  deriving DecidableEq, Repr

/-- The argument `{ value }` for a `KernelDecStdVectorElementsByValue&&` parameter
(utest_pipeline.cpp:26-29, 78): a temporary constructed by
`KernelDecStdVectorElementsByValue(int value) : value_(value)`. -/
def KernelDecStdVectorElementsByValue.braced (value : Int) : TestState :=
  TestState.dec value

/-- The argument `{}` for a `KernelFilterAllStdVectorElementsNonNegative&&` parameter
(utest_pipeline.cpp:78): the class has no data member. -/
def KernelFilterAllStdVectorElementsNonNegative.braced : TestState := TestState.filter

/-- The argument `{}` for a `KernelSumOfStdVec&&` parameter (utest_pipeline.cpp:78): the
temporary is value-initialised, and since the class has no user-provided constructor
(utest_pipeline.cpp:56-69) value-initialisation zero-initialises it first, so
`output_data_` is 0. -/
def KernelSumOfStdVec.braced : TestState := TestState.sum (some 0)

/-- The class `KernelDecStdVectorElementsByValue` (utest_pipeline.cpp:22-43) as a class
of a program: `for (auto& x : input_data) x -= value_; return &input_data;`, with
`value_` read from the object it is invoked on.  Its implicit move constructor copies
`value_`.  The branch for other pointers makes the model total; the C++ type system
lets the operator be invoked on a vector only. -/
def KernelDecStdVectorElementsByValue.cls : KernelClass (List Int) TestState Unit where
  type := KernelDecStdVectorElementsByValue.type
  move := fun k => k
  call := fun p j input_data w =>
    match input_data, w.subobject p j with
    | Ptr.outside (), some (TestState.dec value_) =>
      (some (Ptr.outside ()), { w with outside := w.outside.map (fun x => x - value_) })
    | _, _ => (none, w)

/-- The class `KernelFilterAllStdVectorElementsNonNegative` (utest_pipeline.cpp:45-54) as
a class of a program: `return std::all_of(..., x >= 0) ? &input_data : nullptr;`. -/
def KernelFilterAllStdVectorElementsNonNegative.cls :
    KernelClass (List Int) TestState Unit where
  type := KernelFilterAllStdVectorElementsNonNegative.type
  move := fun k => k
  call := fun _ _ input_data w =>
    match input_data with
    | Ptr.outside () =>
      (if w.outside.all (fun x => decide (x ≥ 0)) then some (Ptr.outside ()) else none, w)
    | Ptr.member _ _ => (none, w)

/-- The class `KernelSumOfStdVec` (utest_pipeline.cpp:56-69) as a class of a program:
`output_data_ = std::accumulate(begin, end, 0); return &output_data_;`, writing the
`output_data_` of the object it is invoked on.  Its implicit move constructor copies
`output_data_`. -/
def KernelSumOfStdVec.cls : KernelClass (List Int) TestState Unit where
  type := KernelSumOfStdVec.type
  move := fun k => k
  call := fun p j input_data w =>
    match input_data with
    | Ptr.outside () =>
      (some (Ptr.member p j),
        w.setSubobject p j
          (TestState.sum (some (w.outside.foldl (fun acc x => acc + x) 0))))
    | Ptr.member _ _ => (none, w)

/-- The classes of the pipeline of the tests (utest_pipeline.cpp:73-76, 88-91). -/
def testPipeline.classes : List (KernelClass (List Int) TestState Unit) :=
  [KernelDecStdVectorElementsByValue.cls, KernelFilterAllStdVectorElementsNonNegative.cls,
   KernelSumOfStdVec.cls]

/-- The arguments `({ value }, {}, {})` of the constructor in the tests
(utest_pipeline.cpp:78, 93, with `value = 2`). -/
def testPipeline.braced (value : Int) : List TestState :=
  [KernelDecStdVectorElementsByValue.braced value,
   KernelFilterAllStdVectorElementsNonNegative.braced, KernelSumOfStdVec.braced]

/-- The `int` a pointer of a test program refers to, if it refers to the `output_data_`
of a `KernelSumOfStdVec`. -/
def World.readInt (w : World (List Int) TestState) : Ptr Unit → Option Int
  | Ptr.member p j =>
    match w.subobject p j with
    | some (TestState.sum output_data_) => output_data_
    | _ => none
  | Ptr.outside _ => none

/-- A kernel class whose objects share a counter outside the pipelines, as in
`class KernelCountCalls : public IKernel<std::vector<int>>` holding an `int* calls_`
given to its constructor, with
`operator()` being `return ++*calls_ > 1 ? nullptr : &input_data;`.  The outside memory is
the caller's vector and the counter. -/
def KernelCountCalls.cls : KernelClass (List Int × Nat) Unit Unit where
  type := publicDerived "KernelCountCalls" (IKernel "std::vector<int>" "std::vector<int>")
  move := fun k => k
  call := fun _ _ input_data w =>
    ((if w.outside.2 + 1 > 1 then none else some input_data),
      { w with outside := (w.outside.1, w.outside.2 + 1) })

/-! ## Concrete runs used as witnesses -/

/-- The pointer and memory after `j` stages of the test `EXECUTION_SUCCESS`
(`c = 2`, `v = [2, 3, 4]`). -/
def successRun : Nat → Addr × Mem
  | 0 => (Addr.v, { v := [2, 3, 4], output_data_ := none })
  | 1 => (Addr.v, { v := [0, 1, 2], output_data_ := none })
  | 2 => (Addr.v, { v := [0, 1, 2], output_data_ := none })
  | _ => (Addr.output_data_, { v := [0, 1, 2], output_data_ := some 3 })

/-- The pointer and memory after `j` stages of the test `EXECUTION_FAILURE`
(`c = 2`, `v = [2, 1, 4]`), as far as the run gets. -/
def failureRun : Nat → Addr × Mem
  | 0 => (Addr.v, { v := [2, 1, 4], output_data_ := none })
  | _ => (Addr.v, { v := [0, -1, 2], output_data_ := none })

/-- A kernel type with three different types around it, first half:
`class KernelIntToLong : public IKernel<int, long>`. -/
def KernelIntToLong.type : TypeDesc :=
  publicDerived "KernelIntToLong" (IKernel "int" "long")

/-- A kernel type with three different types around it, second half:
`class KernelLongToDouble : public IKernel<long, double>`. -/
def KernelLongToDouble.type : TypeDesc :=
  publicDerived "KernelLongToDouble" (IKernel "long" "double")

/-- Two pointer-and-memory pairs of the tests hold the same value: the pointers are
equal, the vectors are equal, and `output_data_` is equal whenever it is the object
pointed to. -/
def sameValue (p q : Addr × Mem) : Prop :=
  p.1 = q.1 ∧ p.2.v = q.2.v ∧ (p.1 = Addr.output_data_ → p.2.output_data_ = q.2.output_data_)

/-- Two memories of the tests hold the same vector. -/
def sameVector (m m' : Mem) : Prop := m.v = m'.v

/-- The pipeline of the tests with its first two stages swapped,
`Pipeline<KernelFilterAllStdVectorElementsNonNegative, KernelDecStdVectorElementsByValue,
KernelSumOfStdVec> pipeline({}, { c }, {})`. -/
def swappedPipeline (c : Int) : List (Kernel Mem Addr) :=
  [KernelFilterAllStdVectorElementsNonNegative, KernelDecStdVectorElementsByValue c,
   KernelSumOfStdVec]

/-- The stage types of the swapped pipeline. -/
def swappedPipeline.types : List TypeDesc :=
  [KernelFilterAllStdVectorElementsNonNegative.type, KernelDecStdVectorElementsByValue.type,
   KernelSumOfStdVec.type]

/-- The stage types of both tests (utest_pipeline.cpp:73-76, 88-91). -/
def testPipeline.types : List TypeDesc :=
  [KernelDecStdVectorElementsByValue.type, KernelFilterAllStdVectorElementsNonNegative.type,
   KernelSumOfStdVec.type]

/-! # Theorems -/

open Pipeline

/-! ## Basic facts about the fold -/

section fold

variable {σ α : Type}

theorem specLoop_cons (k : Kernel σ α) (ks : List (Kernel σ α)) (i : Nat) (cur : α)
    (mem : σ) (calls : List (Nat × α)) :
    specLoop (k :: ks) i cur mem calls =
      match (k.call cur mem).1 with
      | none => (none, (k.call cur mem).2, calls ++ [(i, cur)])
      | some out => specLoop ks (i + 1) out (k.call cur mem).2 (calls ++ [(i, cur)]) := by
  rw [specLoop]
  rcases hc : k.call cur mem with ⟨_ | out, mem'⟩ <;> rfl

/-- The fold over stages `i, i+1, ...` started in a frame whose slot `i` holds `cur` and
whose later slots are null agrees with the loop: same memory, same log, and slot
`i + n` holds the loop's result. -/
theorem foldAnd_specLoop (ks : List (Kernel σ α)) :
    ∀ (i : Nat) (cur : α) (s : Frame σ α),
      s.data_ptrs[i]? = some (some cur) →
      i + ks.length < s.data_ptrs.length →
      (∀ j, i < j → (s.data_ptrs[j]?).join = none) →
      ∃ s', foldAnd ((List.range' i ks.length).zip ks) s
              = some ((specLoop ks i cur s.mem s.calls).1.isSome, s') ∧
            s'.mem = (specLoop ks i cur s.mem s.calls).2.1 ∧
            s'.calls = (specLoop ks i cur s.mem s.calls).2.2 ∧
            (s'.data_ptrs[i + ks.length]?).join = (specLoop ks i cur s.mem s.calls).1 ∧
            s'.data_ptrs.length = s.data_ptrs.length := by
  induction ks with
  | nil =>
    intro i cur s hi _ _
    exact ⟨s, by simp [foldAnd, specLoop], by simp [specLoop], by simp [specLoop],
      by simp [specLoop, hi], rfl⟩
  | cons k ks ih =>
    intro i cur s hi hlen hnull
    simp only [List.length_cons] at hlen ⊢
    rw [List.range'_succ, List.zip_cons_cons, foldAnd, assign, hi, specLoop_cons]
    dsimp only
    rcases hc : k.call cur s.mem with ⟨_ | out, mem'⟩
    · dsimp only [Option.isSome]
      refine ⟨_, rfl, rfl, rfl, ?_, by simp⟩
      by_cases hk : ks.length = 0
      · simp [hk, List.getElem?_set]
      · have : i + 1 ≠ i + (ks.length + 1) := by omega
        simp only [List.getElem?_set_ne this]
        exact hnull _ (by omega)
    · dsimp only [Option.isSome]
      have := ih (i + 1) out
        { mem := mem', data_ptrs := s.data_ptrs.set (i + 1) (some out),
          calls := s.calls ++ [(i, cur)] }
        (by simp [List.getElem?_set]; omega)
        (by simp; omega)
        (by
          intro j hj
          have : i + 1 ≠ j := by omega
          simp only [List.getElem?_set_ne this]
          exact hnull j (by omega))
      obtain ⟨s', h1, h2, h3, h4, h5⟩ := this
      refine ⟨s', h1, h2, h3, ?_, by simpa using h5⟩
      rw [← h4]
      congr 2
      omega

/-- The run of `execute` never has undefined behaviour, and its observable outcome is the one of
the loop started at stage 0 on the caller's input with an empty log. -/
theorem execute_specLoop (ks : List (Kernel σ α)) (x : α) (m : σ) :
    ∃ out, execute ks x m = some out ∧
      out.ret = (specLoop ks 0 x m []).1 ∧
      out.mem = (specLoop ks 0 x m []).2.1 ∧
      out.calls = (specLoop ks 0 x m []).2.2 := by
  have h := foldAnd_specLoop ks 0 x
    { mem := m,
      data_ptrs := (List.replicate ((List.range ks.length).length + 1) none).set 0 (some x),
      calls := [] }
    (by simp [List.replicate_succ])
    (by simp)
    (by
      intro j hj
      have : 0 ≠ j := by omega
      simp only [List.getElem?_set_ne this, List.getElem?_replicate]
      split <;> rfl)
  obtain ⟨s', h1, h2, h3, h4, h5⟩ := h
  rw [← List.range_eq_range'] at h1
  have hlt : ks.length < s'.data_ptrs.length := by
    rw [h5]
    simp
  have hget : s'.data_ptrs[ks.length]? = some (s'.data_ptrs[ks.length]) :=
    List.getElem?_eq_getElem hlt
  refine ⟨{ ret := s'.data_ptrs[ks.length], mem := s'.mem,
            data_ptrs := s'.data_ptrs, calls := s'.calls }, ?_, ?_, h2, h3⟩
  · simp only [execute, executeImpl, h1, hget]
  · rw [Nat.zero_add, hget] at h4
    simpa using h4

/-- When the first `p` stages succeed one after the other (`y j` being the pointer and
memory after `j` stages), the loop continues from stage `p` on `y p`, having logged
the invocations of stages `0, ..., p - 1` in order. -/
theorem specLoop_prefix (p : Nat) :
    ∀ (ks : List (Kernel σ α)) (i : Nat) (cur : α) (mem : σ) (calls : List (Nat × α))
      (y : Nat → α × σ),
      p ≤ ks.length → y i = (cur, mem) →
      (∀ j (hj : j < ks.length), j < p →
        (ks[j]).call (y (i + j)).1 (y (i + j)).2 = (some (y (i + j + 1)).1, (y (i + j + 1)).2)) →
      specLoop ks i cur mem calls =
        specLoop (ks.drop p) (i + p) (y (i + p)).1 (y (i + p)).2
          (calls ++ (List.range' i p).map (fun j => (j, (y j).1))) := by
  induction p with
  | zero =>
    intro ks i cur mem calls y _ h0 _
    simp [h0]
  | succ p ih =>
    intro ks i cur mem calls y hp h0 hstep
    match ks, hp with
    | k :: ks, hp =>
      have hk := hstep 0 (by simp) (by omega)
      simp only [List.getElem_cons_zero, Nat.add_zero, h0] at hk
      rw [specLoop_cons, hk]
      dsimp only
      rw [ih ks (i + 1) (y (i + 1)).1 (y (i + 1)).2 _ y (by simpa using hp) rfl]
      · have e : i + 1 + p = i + (p + 1) := by omega
        simp [List.range'_succ, e, h0]
      · intro j hj hjp
        have := hstep (j + 1) (by simpa using hj) (by omega)
        simp only [List.getElem_cons_succ] at this
        have e : i + 1 + j = i + (j + 1) := by omega
        rw [e]
        exact this

/-- The loop on equivalent inputs gives equivalent results when every stage is
deterministic. -/
theorem specLoop_deterministic (R : α × σ → α × σ → Prop) (Q : σ → σ → Prop)
    (ks : List (Kernel σ α)) :
    ∀ (i : Nat) (cur : α) (mem : σ) (cur' : α) (mem' : σ) (calls calls' : List (Nat × α)),
      (∀ k ∈ ks, Deterministic R Q k) → R (cur, mem) (cur', mem') →
      match (specLoop ks i cur mem calls).1, (specLoop ks i cur' mem' calls').1 with
      | some b, some b' =>
        R (b, (specLoop ks i cur mem calls).2.1) (b', (specLoop ks i cur' mem' calls').2.1)
      | none, none =>
        Q (specLoop ks i cur mem calls).2.1 (specLoop ks i cur' mem' calls').2.1
      | _, _ => False := by
  induction ks with
  | nil =>
    intro i cur mem cur' mem' calls calls' _ h
    simpa [specLoop] using h
  | cons k ks ih =>
    intro i cur mem cur' mem' calls calls' hdet h
    have hk := hdet k (List.mem_cons_self _ _) cur mem cur' mem' h
    rw [specLoop_cons, specLoop_cons]
    rcases h1 : k.call cur mem with ⟨_ | b, n⟩ <;>
      rcases h2 : k.call cur' mem' with ⟨_ | b', n'⟩ <;>
      rw [h1, h2] at hk
    · exact hk
    · exact hk.elim
    · exact hk.elim
    · exact ih (i + 1) b n b' n' _ _ (fun k' hk' => hdet k' (List.mem_cons_of_mem _ hk')) hk

end fold

/-! ## Facts about the test kernels -/

theorem all_nonneg_map_sub (c : Int) (v : List Int) :
    (v.map (fun x => x - c)).all (fun x => decide (x ≥ 0)) = true ↔ ∀ x ∈ v, c ≤ x := by
  simp [List.all_eq_true]

theorem foldl_add_eq_sum (v : List Int) (a : Int) :
    v.foldl (fun acc x => acc + x) a = a + v.sum := by
  induction v generalizing a with
  | nil => simp
  | cons x v ih => simp [ih, add_assoc]

theorem accumulate_map_sub (c : Int) (v : List Int) :
    (v.map (fun x => x - c)).foldl (fun acc x => acc + x) 0 = v.sum - c * v.length := by
  rw [foldl_add_eq_sum]
  induction v with
  | nil => simp
  | cons x v ih =>
    simp only [List.map_cons, List.sum_cons, List.length_cons, Nat.cast_add, Nat.cast_one]
    simp only [zero_add] at ih
    rw [zero_add, ih]
    ring

/-- The loop on the pipeline of the tests when every element is at least `c`. -/
theorem specLoop_testPipeline_success (c : Int) (v : List Int) (o : Option Int)
    (hall : ∀ x ∈ v, c ≤ x) :
    specLoop (testPipeline c) 0 Addr.v { v := v, output_data_ := o } [] =
      (some Addr.output_data_,
        { v := v.map (fun x => x - c),
          output_data_ := some ((v.map (fun x => x - c)).foldl (fun acc x => acc + x) 0) },
        [(0, Addr.v), (1, Addr.v), (2, Addr.v)]) := by
  have ha := (all_nonneg_map_sub c v).2 hall
  simp only [testPipeline, specLoop, KernelDecStdVectorElementsByValue,
    KernelFilterAllStdVectorElementsNonNegative, KernelSumOfStdVec, ha, if_true,
    List.nil_append, List.cons_append, Nat.zero_add, Nat.reduceAdd]

/-- The loop on the pipeline of the tests when some element is below `c`. -/
theorem specLoop_testPipeline_failure (c : Int) (v : List Int) (o : Option Int)
    (hnot : ¬ ∀ x ∈ v, c ≤ x) :
    specLoop (testPipeline c) 0 Addr.v { v := v, output_data_ := o } [] =
      (none, { v := v.map (fun x => x - c), output_data_ := o },
        [(0, Addr.v), (1, Addr.v)]) := by
  have ha : (v.map (fun x => x - c)).all (fun x => decide (x ≥ 0)) = false := by
    rw [Bool.eq_false_iff]
    exact fun h => hnot ((all_nonneg_map_sub c v).1 h)
  simp only [testPipeline, specLoop, KernelDecStdVectorElementsByValue,
    KernelFilterAllStdVectorElementsNonNegative, ha, if_false, Bool.false_eq_true,
    List.nil_append, List.cons_append, Nat.zero_add, Nat.reduceAdd]

/-- Every stage of the pipeline of the tests is deterministic in the value it is given:
it does not depend on what `output_data_` held before. -/
theorem testPipeline_deterministic (c : Int) :
    ∀ k ∈ testPipeline c, Deterministic sameValue sameVector k := by
  intro k hk
  simp only [testPipeline, List.mem_cons, List.mem_singleton, List.not_mem_nil,
    or_false] at hk
  intro a m a' m' h
  obtain ⟨ha, hv, ho⟩ := h
  simp only at ha hv ho
  subst ha
  rcases hk with rfl | rfl | rfl
  · cases a
    · simp [KernelDecStdVectorElementsByValue, sameValue, hv]
    · simpa [KernelDecStdVectorElementsByValue, sameVector] using hv
  · cases a
    · by_cases hall : ∀ x ∈ m'.v, 0 ≤ x
      · simp only [KernelFilterAllStdVectorElementsNonNegative, hv, List.all_eq_true,
          decide_eq_true_eq, ge_iff_le, if_pos hall]
        exact ⟨rfl, hv, fun h => Addr.noConfusion h⟩
      · simp [KernelFilterAllStdVectorElementsNonNegative, sameVector, hv, hall]
    · simpa [KernelFilterAllStdVectorElementsNonNegative, sameVector] using hv
  · cases a
    · simp [KernelSumOfStdVec, sameValue, hv]
    · simpa [KernelSumOfStdVec, sameVector] using hv

/-! ## Facts about the compile-time layer -/

section types

theorem is_kernel_v_eq_true (T : TypeDesc) :
    is_kernel_v T = true ↔
      ∃ I O, T.input_t = some I ∧ T.output_t = some O ∧ is_base_of_IKernel I O T = true := by
  unfold is_kernel_v is_kernel void_t
  rcases hi : T.input_t with _ | I <;> rcases ho : T.output_t with _ | O <;> simp

theorem is_same_v_eq_true (a b : Option CppType) :
    is_same_v a b = true ↔ ∃ A, a = some A ∧ b = some A := by
  rcases a with _ | A <;> rcases b with _ | B <;> simp [is_same_v, eq_comm]

theorem nth_input_t_some (Kernels : List TypeDesc)
    (hk : ∀ K ∈ Kernels, is_kernel_v K = true) (n : Nat) (hn : n < Kernels.length) :
    ∃ I, nth_input_t Kernels n = some I := by
  obtain ⟨I, O, hi, _, _⟩ := (is_kernel_v_eq_true _).1 (hk _ (List.getElem_mem hn))
  exact ⟨I, by simp [nth_input_t, List.getElem?_eq_getElem hn, hi]⟩

theorem nth_output_t_some (Kernels : List TypeDesc)
    (hk : ∀ K ∈ Kernels, is_kernel_v K = true) (n : Nat) (hn : n < Kernels.length) :
    ∃ O, nth_output_t Kernels n = some O := by
  obtain ⟨I, O, _, ho, _⟩ := (is_kernel_v_eq_true _).1 (hk _ (List.getElem_mem hn))
  exact ⟨O, by simp [nth_output_t, List.getElem?_eq_getElem hn, ho]⟩

/-- The three assertions of `Pipeline` hold exactly when every stage is a kernel, there
is at least one stage, and adjacent types agree. -/
theorem static_asserts_hold_eq_true (Kernels : List TypeDesc) :
    static_asserts_hold Kernels = true ↔
      (∀ K ∈ Kernels, is_kernel_v K = true) ∧ Kernels ≠ [] ∧
      ∀ i, i + 1 < Kernels.length → nth_output_t Kernels i = nth_input_t Kernels (i + 1) := by
  simp only [static_asserts_hold, staticAssertTypeContinuity, num_steps,
    Bool.and_eq_true, decide_eq_true_eq, List.all_eq_true, List.mem_range,
    is_same_v_eq_true, gt_iff_lt, List.length_pos]
  constructor
  · rintro ⟨⟨hk, hne⟩, hc⟩
    refine ⟨hk, hne, ?_⟩
    intro i hi
    obtain ⟨A, h1, h2⟩ := hc i (by omega)
    rw [h1, h2]
  · rintro ⟨hk, hne, hc⟩
    refine ⟨⟨hk, hne⟩, ?_⟩
    intro i hi
    obtain ⟨O, ho⟩ := nth_output_t_some Kernels hk i (by omega)
    exact ⟨O, ho, by rw [← hc i (by omega), ho]⟩

/-- An instance can be created exactly when the stage classes are pairwise distinct,
none is `final`, every one can be initialised from an rvalue of itself, none is
abstract, and the three assertions hold. -/
theorem constructible_eq_true (Kernels : List TypeDesc) :
    constructible Kernels = true ↔
      (Kernels.map TypeDesc.class_name).Nodup ∧
      (∀ K ∈ Kernels, K.is_final = false) ∧
      (∀ K ∈ Kernels, K.is_movable = true) ∧
      (∀ K ∈ Kernels, K.is_abstract = false) ∧
      static_asserts_hold Kernels = true := by
  simp only [constructible, instantiable, static_asserts_hold, Bool.and_eq_true,
    decide_eq_true_eq, List.all_eq_true, Bool.not_eq_true']
  constructor
  · rintro ⟨⟨⟨⟨⟨⟨hd, hf⟩, hk⟩, hn⟩, hc⟩, hmv⟩, ha⟩
    exact ⟨hd, hf, hmv, ha, ⟨hk, hn⟩, hc⟩
  · rintro ⟨hd, hf, hmv, ha, ⟨hk, hn⟩, hc⟩
    exact ⟨⟨⟨⟨⟨⟨hd, hf⟩, hk⟩, hn⟩, hc⟩, hmv⟩, ha⟩

/-- Whenever an instance can be created the three assertions hold. -/
theorem static_asserts_of_constructible (Kernels : List TypeDesc)
    (h : constructible Kernels = true) : static_asserts_hold Kernels = true :=
  ((constructible_eq_true Kernels).1 h).2.2.2.2

/-- The member types of a pipeline whose assertions hold are those of its first and last
stage, and both are well-formed. -/
theorem pipeline_member_types (Kernels : List TypeDesc)
    (h : static_asserts_hold Kernels = true) :
    ∃ k1 kn I O, Kernels.head? = some k1 ∧ Kernels.getLast? = some kn ∧
      k1.input_t = some I ∧ kn.output_t = some O ∧
      input_t Kernels = some I ∧ output_t Kernels = some O := by
  obtain ⟨hk, hne, _⟩ := (static_asserts_hold_eq_true Kernels).1 h
  have hpos : 0 < Kernels.length := List.length_pos.2 hne
  obtain ⟨I, hI⟩ := nth_input_t_some Kernels hk 0 hpos
  obtain ⟨O, hO⟩ := nth_output_t_some Kernels hk (Kernels.length - 1) (by omega)
  refine ⟨Kernels[0], Kernels[Kernels.length - 1], I, O, ?_, ?_, ?_, ?_, hI, hO⟩
  · rw [List.head?_eq_getElem?, List.getElem?_eq_getElem hpos]
  · rw [List.getLast?_eq_getElem?, List.getElem?_eq_getElem (by omega)]
  · simpa [nth_input_t, List.getElem?_eq_getElem hpos] using hI
  · have hlt : Kernels.length - 1 < Kernels.length := by omega
    simpa [nth_output_t, List.getElem?_eq_getElem hlt] using hO

end types

/-! ## Success and failure of `execute` -/

section contract

variable {σ α : Type}

/-- C1. For every pipeline `ks` and input `x` in memory `m`: if every stage succeeds on
what its predecessor produced (`y 0` is the input, and stage `j + 1` invoked on the
pointer and memory `y j` returns the non-null pointer and the memory `y (j + 1)`), then
`execute` returns a non-null pointer, namely the one returned by the last stage, and
leaves the memory left by the last stage: the left-to-right composition of the stages. -/
theorem execute_success_composition (ks : List (Kernel σ α)) (x : α) (m : σ)
    (y : Nat → α × σ) (h0 : y 0 = (x, m))
    (hstep : ∀ j (hj : j < ks.length),
      (ks[j]).call (y j).1 (y j).2 = (some (y (j + 1)).1, (y (j + 1)).2)) :
    ∃ out, execute ks x m = some out ∧
      out.ret = some (y ks.length).1 ∧ out.mem = (y ks.length).2 := by
  obtain ⟨out, he, hr, hm, _⟩ := execute_specLoop ks x m
  have h := specLoop_prefix ks.length ks 0 x m [] y (Nat.le_refl _) h0
    (by intro j hj _; simpa using hstep j hj)
  simp only [List.drop_length, Nat.zero_add, specLoop] at h
  exact ⟨out, he, by rw [hr, h], by rw [hm, h]⟩

/-- C2. For every pipeline `ks` of `n` stages and input `x` in memory `m`: if stage `k`
(1-indexed, `1 ≤ k ≤ n`) is the first to fail, that is stages `1, ..., k - 1` succeed one
after the other and stage `k` returns `nullptr` on what stage `k - 1` produced, then
`execute` returns `nullptr` and the invocation log holds no stage after `k` (the log
is 0-indexed: every logged index is below `k`). -/
theorem execute_first_failure (ks : List (Kernel σ α)) (x : α) (m : σ) (k : Nat)
    (y : Nat → α × σ) (hk : 1 ≤ k) (hkn : k ≤ ks.length) (h0 : y 0 = (x, m))
    (hsucc : ∀ j (hj : j < ks.length), j + 1 < k →
      (ks[j]).call (y j).1 (y j).2 = (some (y (j + 1)).1, (y (j + 1)).2))
    (hfail : ((ks[k - 1]).call (y (k - 1)).1 (y (k - 1)).2).1 = none) :
    ∃ out, execute ks x m = some out ∧ out.ret = none ∧
      ∀ c ∈ out.calls, c.1 < k := by
  obtain ⟨out, he, hr, _, hc⟩ := execute_specLoop ks x m
  have h := specLoop_prefix (k - 1) ks 0 x m [] y (by omega) h0
    (by intro j hj hjk; simpa using hsucc j hj (by omega))
  have hd : ks.drop (k - 1) = ks[k - 1] :: ks.drop (k - 1 + 1) :=
    List.drop_eq_getElem_cons (by omega)
  rw [hd, specLoop_cons, Nat.zero_add, hfail] at h
  dsimp only at h
  refine ⟨out, he, by rw [hr, h], ?_⟩
  rw [hc, h]
  intro c hcm
  simp only [List.nil_append, List.mem_append, List.mem_map, List.mem_range',
    List.mem_singleton] at hcm
  rcases hcm with ⟨j, ⟨i, hi, rfl⟩, rfl⟩ | rfl
  · simp only; omega
  · simp only; omega

end contract

/-- Witness of C1: the run of the test `EXECUTION_SUCCESS`. -/
theorem execute_success_composition_witness :
    ∃ out, execute (testPipeline 2) Addr.v { v := [2, 3, 4], output_data_ := none } = some out ∧
      out.ret = some Addr.output_data_ ∧
      out.mem = { v := [0, 1, 2], output_data_ := some 3 } :=
  execute_success_composition (testPipeline 2) Addr.v { v := [2, 3, 4], output_data_ := none }
    successRun rfl (by decide)

/-- Witness of C2: the run of the test `EXECUTION_FAILURE`, where stage 2 of 3 is the
first to fail. -/
theorem execute_first_failure_witness :
    ∃ out, execute (testPipeline 2) Addr.v { v := [2, 1, 4], output_data_ := none } = some out ∧
      out.ret = none ∧ ∀ c ∈ out.calls, c.1 < 2 :=
  execute_first_failure (testPipeline 2) Addr.v { v := [2, 1, 4], output_data_ := none } 2
    failureRun (by decide) (by decide) rfl (by decide) (by decide)

/-! ## Construction and the kernel capability -/

/-- C3. Construction of a pipeline is rejected for every stage sequence that (a) contains
an element that is not a kernel, or (b) is empty, or (c) has an adjacent pair whose left
output type differs from its right input type: one of the assertions of `Pipeline`
fails, and no instance can be created. -/
theorem construction_rejected (Kernels : List TypeDesc)
    (h : (∃ K ∈ Kernels, is_kernel_v K = false) ∨ Kernels = [] ∨
      ∃ i, i + 1 < Kernels.length ∧
        nth_output_t Kernels i ≠ nth_input_t Kernels (i + 1)) :
    static_asserts_hold Kernels = false ∧ constructible Kernels = false := by
  have hs : static_asserts_hold Kernels = false := by
    rw [Bool.eq_false_iff]
    intro hc
    obtain ⟨hk, hne, hcont⟩ := (static_asserts_hold_eq_true Kernels).1 hc
    rcases h with ⟨K, hK, hf⟩ | h | ⟨i, hi, hd⟩
    · rw [hk K hK] at hf
      exact Bool.noConfusion hf
    · exact hne h
    · exact hd (hcont i hi)
  refine ⟨hs, ?_⟩
  rw [Bool.eq_false_iff]
  intro hc
  rw [static_asserts_of_constructible Kernels hc] at hs
  exact Bool.noConfusion hs

/-- Witness of C3, case (c): the stages subtract-by-value, sum, non-negative filter are
rejected, because the output type `int` of the sum is not the input type
`std::vector<int>` of the filter. -/
theorem construction_rejected_witness :
    nth_output_t [KernelDecStdVectorElementsByValue.type, KernelSumOfStdVec.type,
        KernelFilterAllStdVectorElementsNonNegative.type] 1 = some "int" ∧
      nth_input_t [KernelDecStdVectorElementsByValue.type, KernelSumOfStdVec.type,
        KernelFilterAllStdVectorElementsNonNegative.type] 2 = some "std::vector<int>" ∧
      static_asserts_hold [KernelDecStdVectorElementsByValue.type, KernelSumOfStdVec.type,
        KernelFilterAllStdVectorElementsNonNegative.type] = false ∧
      constructible [KernelDecStdVectorElementsByValue.type, KernelSumOfStdVec.type,
        KernelFilterAllStdVectorElementsNonNegative.type] = false :=
  ⟨by decide, by decide,
    construction_rejected _ (Or.inr (Or.inr ⟨1, by decide, by decide⟩))⟩

/-- Converse reading of C3: whenever an instance can be created, every stage is a
kernel, there is at least one stage, and adjacent types agree. -/
theorem constructible_sound (Kernels : List TypeDesc) (h : constructible Kernels = true) :
    (∀ K ∈ Kernels, is_kernel_v K = true) ∧ Kernels ≠ [] ∧
      ∀ i, i + 1 < Kernels.length → nth_output_t Kernels i = nth_input_t Kernels (i + 1) :=
  (static_asserts_hold_eq_true Kernels).1 (static_asserts_of_constructible Kernels h)

/-- C5 as stated fails: the pipeline over `KernelIntToLong` and `KernelLongToDouble` can
be created, declares `input_t = int` and `output_t = double`, and is not a kernel, since
`IKernel<int, double>` is none of its base classes. -/
theorem pipeline_not_a_kernel :
    constructible [KernelIntToLong.type, KernelLongToDouble.type] = true ∧
      (Pipeline.type [KernelIntToLong.type, KernelLongToDouble.type]).input_t = some "int" ∧
      (Pipeline.type [KernelIntToLong.type, KernelLongToDouble.type]).output_t
        = some "double" ∧
      is_kernel_v (Pipeline.type [KernelIntToLong.type, KernelLongToDouble.type]) = false := by
  decide

/-- C5, amended. For every pipeline whose assertions hold, in particular for every
pipeline that can be created, the declared input type is the first stage's input type
`I`, the declared output type is the last stage's output type `O`, and the pipeline
satisfies the kernel capability exactly when `IKernel<I, O>` is a base class of one of
its stages. -/
theorem pipeline_kernel_capability (Kernels : List TypeDesc)
    (h : static_asserts_hold Kernels = true) :
    ∃ k1 kn I O, Kernels.head? = some k1 ∧ Kernels.getLast? = some kn ∧
      k1.input_t = some I ∧ kn.output_t = some O ∧
      (Pipeline.type Kernels).input_t = some I ∧
      (Pipeline.type Kernels).output_t = some O ∧
      (is_kernel_v (Pipeline.type Kernels) = true ↔
        ∃ K ∈ Kernels, is_base_of_IKernel I O K = true) := by
  obtain ⟨k1, kn, I, O, h1, hn, hi, ho, hI, hO⟩ := pipeline_member_types Kernels h
  refine ⟨k1, kn, I, O, h1, hn, hi, ho, hI, hO, ?_⟩
  rw [is_kernel_v_eq_true]
  simp only [Pipeline.type, hI, hO, Option.some.injEq, is_base_of_IKernel,
    decide_eq_true_eq, List.mem_flatMap]
  constructor
  · rintro ⟨I', O', rfl, rfl, hm⟩
    exact hm
  · intro hm
    exact ⟨I, O, rfl, rfl, hm⟩

/-- Witness of C5, amended: the pipeline of the tests is a kernel, because its last
stage derives from `IKernel<std::vector<int>, int>`. -/
theorem pipeline_kernel_capability_witness :
    ∃ k1 kn I O, testPipeline.types.head? = some k1 ∧
      testPipeline.types.getLast? = some kn ∧
      k1.input_t = some I ∧ kn.output_t = some O ∧
      (Pipeline.type testPipeline.types).input_t = some I ∧
      (Pipeline.type testPipeline.types).output_t = some O ∧
      (is_kernel_v (Pipeline.type testPipeline.types) = true ↔
        ∃ K ∈ testPipeline.types, is_base_of_IKernel I O K = true) :=
  pipeline_kernel_capability testPipeline.types (by decide)

/-- C6. For every pipeline over stages `k1, ..., kn` whose assertions hold, in particular
for every pipeline that can be created, the declared input type is the input type of
`k1` and the declared output type is the output type of `kn`; `execute` takes a
reference to the former and returns a pointer to the latter, and these are the pointee
types of slot 0 and of the returned slot `num_steps` of the local tuple. -/
theorem pipeline_declared_types (Kernels : List TypeDesc)
    (h : static_asserts_hold Kernels = true) :
    ∃ k1 kn I O, Kernels.head? = some k1 ∧ Kernels.getLast? = some kn ∧
      k1.input_t = some I ∧ kn.output_t = some O ∧
      input_t Kernels = some I ∧ output_t Kernels = some O ∧
      execute_signature Kernels = (some I, some O) ∧
      (data_ptrs_types Kernels (List.range (num_steps Kernels)))[0]? = some (some I) ∧
      (data_ptrs_types Kernels (List.range (num_steps Kernels)))[num_steps Kernels]?
        = some (some O) := by
  obtain ⟨k1, kn, I, O, h1, hn, hi, ho, hI, hO⟩ := pipeline_member_types Kernels h
  obtain ⟨_, hne, _⟩ := (static_asserts_hold_eq_true Kernels).1 h
  have hpos : 0 < Kernels.length := List.length_pos.2 hne
  refine ⟨k1, kn, I, O, h1, hn, hi, ho, hI, hO, ?_, ?_, ?_⟩
  · simp [execute_signature, hI, hO]
  · rw [data_ptrs_types, List.getElem?_append_left (by simpa [num_steps] using hpos)]
    simp only [num_steps, List.getElem?_map, List.getElem?_range hpos, Option.map_some']
    exact congrArg some hI
  · rw [data_ptrs_types, List.getElem?_append_right (by simp [num_steps])]
    simp [num_steps, hO]

/-- Witness of C6: the pipeline of the tests takes a `std::vector<int>` and yields an
`int`. -/
theorem pipeline_declared_types_witness :
    ∃ k1 kn I O, testPipeline.types.head? = some k1 ∧
      testPipeline.types.getLast? = some kn ∧
      k1.input_t = some I ∧ kn.output_t = some O ∧
      input_t testPipeline.types = some I ∧ output_t testPipeline.types = some O ∧
      execute_signature testPipeline.types = (some I, some O) ∧
      (data_ptrs_types testPipeline.types
        (List.range (num_steps testPipeline.types)))[0]? = some (some I) ∧
      (data_ptrs_types testPipeline.types
        (List.range (num_steps testPipeline.types)))[num_steps testPipeline.types]?
        = some (some O) :=
  pipeline_declared_types testPipeline.types (by decide)

/-- C7. The capability check is a total predicate: `is_kernel_v<T>` is true exactly
when `T` declares `input_t` and `output_t` and `IKernel<T::input_t, T::output_t>` is a
base of `T`; it is false for a type lacking either declaration, and false for a type
that declares both without having that `IKernel` as a base. -/
theorem is_kernel_v_total (T : TypeDesc) :
    (is_kernel_v T = true ↔
      ∃ I O, T.input_t = some I ∧ T.output_t = some O ∧
        is_base_of_IKernel I O T = true) ∧
    (T.input_t = none ∨ T.output_t = none → is_kernel_v T = false) ∧
    (∀ I O, T.input_t = some I → T.output_t = some O →
      is_base_of_IKernel I O T = false → is_kernel_v T = false) := by
  refine ⟨is_kernel_v_eq_true T, ?_, ?_⟩
  · intro h
    rw [Bool.eq_false_iff]
    intro ht
    obtain ⟨I, O, hi, ho, _⟩ := (is_kernel_v_eq_true T).1 ht
    rcases h with h | h
    · rw [hi] at h; exact Option.noConfusion h
    · rw [ho] at h; exact Option.noConfusion h
  · intro I O hi ho hb
    rw [Bool.eq_false_iff]
    intro ht
    obtain ⟨I', O', hi', ho', hb'⟩ := (is_kernel_v_eq_true T).1 ht
    rw [hi] at hi'
    rw [ho] at ho'
    cases hi'
    cases ho'
    rw [hb] at hb'
    exact Bool.noConfusion hb'

/-! ## The test pipeline, stage order, determinism -/

/-- C8. For the pipeline of the tests (subtract `c` from every element; fail unless every
element is non-negative; sum all elements) and every integer sequence `v`: if every
element of `v` is at least `c`, `execute` returns a non-null pointer to an `int` equal to
`sum v - c * length v`; otherwise it returns `nullptr` and the sum stage (index 2) is
never invoked. -/
theorem testPipeline_execute (c : Int) (v : List Int) (o : Option Int) :
    ∃ out, execute (testPipeline c) Addr.v { v := v, output_data_ := o } = some out ∧
      ((∀ x ∈ v, c ≤ x) →
        ∃ res, out.ret = some res ∧ out.mem.readInt res = some (v.sum - c * v.length)) ∧
      (¬ (∀ x ∈ v, c ≤ x) → out.ret = none ∧ ∀ call ∈ out.calls, call.1 ≠ 2) := by
  obtain ⟨out, he, hr, hm, hc⟩ := execute_specLoop (testPipeline c) Addr.v
    { v := v, output_data_ := o }
  refine ⟨out, he, ?_, ?_⟩
  · intro hall
    rw [hr, hm, specLoop_testPipeline_success c v o hall]
    exact ⟨Addr.output_data_, rfl, by simp only [Mem.readInt, accumulate_map_sub]⟩
  · intro hnot
    rw [hr, hc, specLoop_testPipeline_failure c v o hnot]
    refine ⟨rfl, ?_⟩
    intro call hcall
    simp only [List.mem_cons, List.mem_singleton, List.not_mem_nil, or_false] at hcall
    rcases hcall with rfl | rfl <;> decide

/-- The two runs named by C8, with `c = 2`: `v = [2, 3, 4]` gives success with value 3,
and `v = [2, 1, 4]` gives failure without the sum stage being invoked. -/
theorem testPipeline_execute_runs :
    (∃ out, execute (testPipeline 2) Addr.v { v := [2, 3, 4], output_data_ := none }
        = some out ∧ ∃ res, out.ret = some res ∧ out.mem.readInt res = some 3) ∧
    (∃ out, execute (testPipeline 2) Addr.v { v := [2, 1, 4], output_data_ := none }
        = some out ∧ out.ret = none ∧ ∀ call ∈ out.calls, call.1 ≠ 2) :=
  ⟨(testPipeline_execute 2 [2, 3, 4] none).elim
      (fun out h => ⟨out, h.1, h.2.1 (by decide)⟩),
    (testPipeline_execute 2 [2, 1, 4] none).elim
      (fun out h => ⟨out, h.1, h.2.2 (by decide)⟩)⟩

/-- C9. Stage order is significant: the pipeline of the tests and the pipeline with its
first two stages swapped can both be created (the types still match), and on the input
`[2, 1, 4]` with `c = 2` the swapped pipeline (filter, subtract, sum) returns a
non-null pointer to the value 1, while the pipeline of the tests (subtract, filter,
sum) returns `nullptr`. -/
theorem stage_order_significant :
    constructible swappedPipeline.types = true ∧
    constructible testPipeline.types = true ∧
    (execute (swappedPipeline 2) Addr.v { v := [2, 1, 4], output_data_ := none }).map
        (fun out => (out.ret, out.ret.bind out.mem.readInt))
      = some (some Addr.output_data_, some 1) ∧
    (execute (testPipeline 2) Addr.v { v := [2, 1, 4], output_data_ := none }).map
        (fun out => out.ret)
      = some none := by
  decide

/-- C10. Determinism of `execute`: for every pipeline whose stages are deterministic
(with respect to an equivalence `R` of pointer-and-memory pairs and an equivalence `Q`
of memories), two runs that start from equivalent inputs and memories both return, and
their outcomes are equivalent: both fail and leave `Q`-equivalent memories, or both
succeed with `R`-equivalent results and memories. -/
theorem execute_deterministic {σ α : Type} (R : α × σ → α × σ → Prop) (Q : σ → σ → Prop)
    (ks : List (Kernel σ α)) (x : α) (m : σ) (x' : α) (m' : σ)
    (hdet : ∀ k ∈ ks, Deterministic R Q k) (h : R (x, m) (x', m')) :
    ∃ out out', execute ks x m = some out ∧ execute ks x' m' = some out' ∧
      Outcome.Equiv R Q out out' := by
  obtain ⟨out, he, hr, hm, _⟩ := execute_specLoop ks x m
  obtain ⟨out', he', hr', hm', _⟩ := execute_specLoop ks x' m'
  refine ⟨out, out', he, he', ?_⟩
  have := specLoop_deterministic R Q ks 0 x m x' m' [] [] hdet h
  rw [← hr, ← hr', ← hm, ← hm'] at this
  exact this

/-- Witness of C10: two runs of the pipeline of the tests on `[2, 3, 4]` that differ only
in what the never-initialised `output_data_` held before have equivalent outcomes. -/
theorem execute_deterministic_witness :
    ∃ out out',
      execute (testPipeline 2) Addr.v { v := [2, 3, 4], output_data_ := none } = some out ∧
      execute (testPipeline 2) Addr.v { v := [2, 3, 4], output_data_ := some 7 } = some out' ∧
      Outcome.Equiv sameValue sameVector out out' :=
  execute_deterministic sameValue sameVector (testPipeline 2) Addr.v
    { v := [2, 3, 4], output_data_ := none } Addr.v { v := [2, 3, 4], output_data_ := some 7 }
    (testPipeline_deterministic 2) ⟨rfl, rfl, fun h => Addr.noConfusion h⟩

/-! ## The run of the loop, stage by stage -/

section run

variable {σ α : Type}

/-- When the first `p` stages succeed one after the other and either `p` is the number
of stages or stage `p` (0-indexed) fails, the loop has invoked the stages
`0, ..., min (p + 1) n - 1` once each, in order, each on the pointer its predecessor
returned, and stops there. -/
theorem specLoop_stop (ks : List (Kernel σ α)) (x : α) (m : σ) (p : Nat)
    (y : Nat → α × σ) (hp : p ≤ ks.length) (h0 : y 0 = (x, m))
    (hsucc : ∀ j (hj : j < ks.length), j < p →
      (ks[j]).call (y j).1 (y j).2 = (some (y (j + 1)).1, (y (j + 1)).2))
    (hstop : ∀ hlt : p < ks.length, ((ks[p]).call (y p).1 (y p).2).1 = none) :
    (specLoop ks 0 x m []).2.2
        = (List.range (min (p + 1) ks.length)).map (fun j => (j, (y j).1)) ∧
      (p = ks.length →
        (specLoop ks 0 x m []).1 = some (y p).1 ∧ (specLoop ks 0 x m []).2.1 = (y p).2) ∧
      (∀ hlt : p < ks.length,
        (specLoop ks 0 x m []).1 = none ∧
        (specLoop ks 0 x m []).2.1 = ((ks[p]).call (y p).1 (y p).2).2) := by
  have h := specLoop_prefix p ks 0 x m [] y hp h0
    (by intro j hj hjp; simpa using hsucc j hj hjp)
  simp only [Nat.zero_add, List.nil_append] at h
  rcases Nat.lt_or_ge p ks.length with hlt | hge
  · have hd : ks.drop p = ks[p] :: ks.drop (p + 1) := List.drop_eq_getElem_cons hlt
    rw [hd, specLoop_cons, hstop hlt] at h
    dsimp only at h
    have hmin : min (p + 1) ks.length = p + 1 := by omega
    refine ⟨?_, fun he => absurd he (by omega), fun _ => ⟨by rw [h], by rw [h]⟩⟩
    rw [h, hmin, List.range_succ, List.map_append, List.range_eq_range']
    rfl
  · have he : p = ks.length := by omega
    have hmin : min (p + 1) ks.length = p := by omega
    rw [he, List.drop_length, specLoop] at h
    refine ⟨?_, fun _ => ⟨by rw [h, he], by rw [h, he]⟩, fun hlt => absurd hlt (by omega)⟩
    rw [h, hmin, he, List.range_eq_range']

end run

/-! ## The slots of `data_ptrs` -/

section slots

variable {σ α : Type}

/-- Every stage the fold invokes is invoked on a non-null slot: started in a frame whose
slot `i` is non-null and whose log only mentions earlier slots holding the logged
pointers, the fold never dereferences a null slot, keeps the slots up to `i`, and ends
with a log whose every entry names a slot holding the logged pointer. -/
theorem foldAnd_safe (ks : List (Kernel σ α)) :
    ∀ (i : Nat) (cur : α) (s : Frame σ α),
      s.data_ptrs[i]? = some (some cur) →
      i + ks.length < s.data_ptrs.length →
      (∀ c ∈ s.calls, c.1 < i ∧ s.data_ptrs[c.1]? = some (some c.2)) →
      ∃ b s', foldAnd ((List.range' i ks.length).zip ks) s = some (b, s') ∧
        s'.data_ptrs.length = s.data_ptrs.length ∧
        (∀ c ∈ s'.calls, s'.data_ptrs[c.1]? = some (some c.2)) ∧
        (∀ j, j ≤ i → s'.data_ptrs[j]? = s.data_ptrs[j]?) := by
  induction ks with
  | nil =>
    intro i cur s _ _ hc
    exact ⟨true, s, rfl, rfl, fun c h => (hc c h).2, fun _ _ => rfl⟩
  | cons k ks ih =>
    intro i cur s hi hlen hc
    simp only [List.length_cons] at hlen ⊢
    rw [List.range'_succ, List.zip_cons_cons, foldAnd, assign, hi]
    dsimp only
    have hkeep : ∀ j, j ≤ i →
        (s.data_ptrs.set (i + 1) (k.call cur s.mem).1)[j]? = s.data_ptrs[j]? := by
      intro j hj
      have : i + 1 ≠ j := by omega
      exact List.getElem?_set_ne this
    have hc1 : ∀ c ∈ s.calls ++ [(i, cur)],
        c.1 < i + 1 ∧ (s.data_ptrs.set (i + 1) (k.call cur s.mem).1)[c.1]? = some (some c.2) := by
      intro c hmem
      rcases List.mem_append.1 hmem with h | h
      · obtain ⟨h1, h2⟩ := hc c h
        exact ⟨by omega, by rw [hkeep _ (by omega)]; exact h2⟩
      · rw [List.mem_singleton] at h
        subst h
        exact ⟨by simp, by rw [hkeep _ (Nat.le_refl _)]; exact hi⟩
    rcases hr : (k.call cur s.mem).1 with _ | out
    · rw [hr] at hc1 hkeep
      exact ⟨false, _, rfl, by simp, fun c h => (hc1 c h).2, hkeep⟩
    · rw [hr] at hc1 hkeep
      dsimp only [Option.isSome]
      obtain ⟨b, s', h1, h2, h3, h4⟩ := ih (i + 1) out
        { mem := (k.call cur s.mem).2, data_ptrs := s.data_ptrs.set (i + 1) (some out),
          calls := s.calls ++ [(i, cur)] }
        (by simp [List.getElem?_set]; omega)
        (by simp; omega)
        hc1
      refine ⟨b, s', h1, by simpa using h2, h3, ?_⟩
      intro j hj
      rw [h4 j (by omega)]
      exact hkeep j hj

/-- The slots the fold leaves behind when the first `p` stages succeed one after the
other and either `p` is the number of stages or the next stage fails: the slots
`i + 1, ..., i + p` hold the pointers the successful stages returned, slot `i + p + 1`
holds the null pointer the failing stage returned, and every other slot is as
before. -/
theorem foldAnd_slots (ks : List (Kernel σ α)) :
    ∀ (i : Nat) (s : Frame σ α) (p : Nat) (y : Nat → α × σ),
      p ≤ ks.length →
      s.data_ptrs[i]? = some (some (y i).1) → s.mem = (y i).2 →
      i + ks.length < s.data_ptrs.length →
      (∀ j (hj : j < ks.length), j < p →
        (ks[j]).call (y (i + j)).1 (y (i + j)).2
          = (some (y (i + j + 1)).1, (y (i + j + 1)).2)) →
      (∀ hlt : p < ks.length, ((ks[p]).call (y (i + p)).1 (y (i + p)).2).1 = none) →
      ∃ b s', foldAnd ((List.range' i ks.length).zip ks) s = some (b, s') ∧
        s'.data_ptrs.length = s.data_ptrs.length ∧
        ∀ j, s'.data_ptrs[j]? =
          if i < j ∧ j ≤ i + p then some (some (y j).1)
          else if j = i + p + 1 ∧ p < ks.length then some none
          else s.data_ptrs[j]? := by
  induction ks with
  | nil =>
    intro i s p y hp _ _ _ _ _
    refine ⟨true, s, rfl, rfl, ?_⟩
    intro j
    have hp0 : p = 0 := by simpa using hp
    subst hp0
    rw [if_neg (by omega), if_neg (by simp)]
  | cons k ks ih =>
    intro i s p y hp hi hm hlen hsucc hstop
    simp only [List.length_cons] at hlen hp ⊢
    rw [List.range'_succ, List.zip_cons_cons, foldAnd, assign, hi]
    dsimp only
    rw [hm]
    match p, hp, hsucc, hstop with
    | 0, _, _, hstop =>
      have hf := hstop (by simp)
      simp only [List.getElem_cons_zero, Nat.add_zero] at hf
      rw [hf]
      refine ⟨false, _, rfl, by simp, ?_⟩
      intro j
      rw [if_neg (by omega)]
      by_cases hj : i + 1 = j
      · subst hj
        rw [if_pos ⟨rfl, by simp⟩]
        exact List.getElem?_set_self (by omega)
      · rw [if_neg (by omega)]
        exact List.getElem?_set_ne hj
    | p + 1, hp, hsucc, hstop =>
      have hk := hsucc 0 (by simp) (by omega)
      simp only [List.getElem_cons_zero, Nat.add_zero] at hk
      rw [hk]
      dsimp only [Option.isSome]
      obtain ⟨b, s', h1, h2, h3⟩ := ih (i + 1)
        { mem := (y (i + 1)).2, data_ptrs := s.data_ptrs.set (i + 1) (some (y (i + 1)).1),
          calls := s.calls ++ [(i, (y i).1)] } p y (by omega)
        (by simp [List.getElem?_set]; omega)
        rfl
        (by simp; omega)
        (by
          intro j hj hjp
          have := hsucc (j + 1) (by simpa using hj) (by omega)
          simp only [List.getElem_cons_succ] at this
          have e : i + 1 + j = i + (j + 1) := by omega
          rw [e]
          exact this)
        (by
          intro hlt
          have := hstop (by simpa using hlt)
          simp only [List.getElem_cons_succ] at this
          have e : i + 1 + p = i + (p + 1) := by omega
          rw [e]
          exact this)
      refine ⟨b, s', h1, by simpa using h2, ?_⟩
      intro j
      rw [h3 j]
      by_cases hj : i + 1 = j
      · subst hj
        rw [if_neg (by omega), if_neg (by omega), if_pos (by omega)]
        exact List.getElem?_set_self (by omega)
      · by_cases hin : i + 1 < j ∧ j ≤ i + 1 + p
        · have a : i < j ∧ j ≤ i + (p + 1) := by omega
          rw [if_pos hin, if_pos a]
        · have a : ¬ (i < j ∧ j ≤ i + (p + 1)) := by omega
          rw [if_neg hin]
          by_cases hlast : j = i + 1 + p + 1 ∧ p < ks.length
          · have c : j = i + (p + 1) + 1 ∧ p + 1 < ks.length + 1 := by omega
            rw [if_pos hlast, if_neg a, if_pos c]
          · have c : ¬ (j = i + (p + 1) + 1 ∧ p + 1 < ks.length + 1) := by omega
            rw [if_neg hlast, if_neg a, if_neg c]
            exact List.getElem?_set_ne hj

/-- The stage indices logged by the loop are consecutive: the log grows by the indices
`i, i + 1, ..., i + m - 1` for some `m` not above the number of stages. -/
theorem specLoop_calls_fst (ks : List (Kernel σ α)) :
    ∀ (i : Nat) (cur : α) (mem : σ) (calls : List (Nat × α)),
      ∃ m, m ≤ ks.length ∧
        (specLoop ks i cur mem calls).2.2.map Prod.fst
          = calls.map Prod.fst ++ List.range' i m := by
  induction ks with
  | nil =>
    intro i cur mem calls
    exact ⟨0, Nat.le_refl _, by simp [specLoop]⟩
  | cons k ks ih =>
    intro i cur mem calls
    rw [specLoop_cons]
    rcases hr : (k.call cur mem).1 with _ | out
    · exact ⟨1, by simp, by simp⟩
    · obtain ⟨m, hm, h⟩ := ih (i + 1) out (k.call cur mem).2 (calls ++ [(i, cur)])
      refine ⟨m + 1, by simpa using hm, ?_⟩
      dsimp only
      rw [h, List.range'_succ]
      simp

/-- The initial tuple of `executeImpl` for `n` stages: slot 0 holds the address of the
input and the slots `1, ..., n` are null. -/
theorem initial_slots (n : Nat) (x : α) (j : Nat) :
    ((List.replicate (n + 1) (none : Option α)).set 0 (some x))[j]? =
      if j = 0 then some (some x) else if j ≤ n then some none else none := by
  by_cases hj : j = 0
  · subst hj
    rw [if_pos rfl]
    exact List.getElem?_set_self (by simp)
  · rw [if_neg hj, List.getElem?_set_ne (fun h => hj h.symm), List.getElem?_replicate]
    by_cases hl : j ≤ n
    · rw [if_pos hl, if_pos (by omega)]
    · rw [if_neg hl, if_neg (by omega)]

/-- The run of `execute` in terms of the fold: whenever the fold over the initial frame
ends in a frame `s'` with as many slots as it started with, `execute` returns slot
`num_steps` of `s'`. -/
theorem execute_of_foldAnd (ks : List (Kernel σ α)) (x : α) (m : σ) (b : Bool)
    (s' : Frame σ α)
    (hf : foldAnd ((List.range' 0 ks.length).zip ks)
      { mem := m,
        data_ptrs := (List.replicate ((List.range ks.length).length + 1) none).set 0 (some x),
        calls := [] } = some (b, s'))
    (hlen : s'.data_ptrs.length = ks.length + 1) :
    ∃ out, execute ks x m = some out ∧ out.data_ptrs = s'.data_ptrs ∧
      out.calls = s'.calls ∧ out.mem = s'.mem ∧ s'.data_ptrs[ks.length]? = some out.ret := by
  have hlt : ks.length < s'.data_ptrs.length := by omega
  have hget : s'.data_ptrs[ks.length]? = some (s'.data_ptrs[ks.length]) :=
    List.getElem?_eq_getElem hlt
  rw [← List.range_eq_range'] at hf
  refine ⟨{ ret := s'.data_ptrs[ks.length], mem := s'.mem,
            data_ptrs := s'.data_ptrs, calls := s'.calls }, ?_, rfl, rfl, rfl, hget⟩
  simp only [execute, executeImpl, hf, hget]

end slots

/-! ## Concatenation -/

section compose

variable {σ α : Type}

/-- The loop over a concatenation: run the loop over the prefix; on failure stop, on
success continue with the loop over the suffix from where the prefix ended. -/
theorem specLoop_append (pre suf : List (Kernel σ α)) :
    ∀ (i : Nat) (cur : α) (mem : σ) (calls : List (Nat × α)),
      specLoop (pre ++ suf) i cur mem calls =
        match (specLoop pre i cur mem calls).1 with
        | none => specLoop pre i cur mem calls
        | some a =>
          specLoop suf (i + pre.length) a (specLoop pre i cur mem calls).2.1
            (specLoop pre i cur mem calls).2.2 := by
  induction pre with
  | nil =>
    intro i cur mem calls
    simp [specLoop]
  | cons k pre ih =>
    intro i cur mem calls
    rw [List.cons_append, specLoop_cons, specLoop_cons]
    rcases hr : (k.call cur mem).1 with _ | out
    · rfl
    · dsimp only
      rw [ih]
      have e : i + 1 + pre.length = i + (k :: pre).length := by
        simp only [List.length_cons]; omega
      rw [e]

/-- The loop started at stage index `i` with a log `calls` is the loop started at index 0
with an empty log, its log shifted by `i` and appended to `calls`. -/
theorem specLoop_shift (ks : List (Kernel σ α)) :
    ∀ (i : Nat) (cur : α) (mem : σ) (calls : List (Nat × α)),
      specLoop ks i cur mem calls =
        ((specLoop ks 0 cur mem []).1, (specLoop ks 0 cur mem []).2.1,
          calls ++ (specLoop ks 0 cur mem []).2.2.map (fun c => (c.1 + i, c.2))) := by
  induction ks with
  | nil =>
    intro i cur mem calls
    simp [specLoop]
  | cons k ks ih =>
    intro i cur mem calls
    rw [specLoop_cons, specLoop_cons]
    rcases hr : (k.call cur mem).1 with _ | out
    · simp
    · dsimp only
      rw [ih (i + 1), ih (0 + 1)]
      simp only [List.nil_append, List.map_append, List.map_cons, List.map_nil,
        List.map_map, List.append_assoc, List.singleton_append, Nat.zero_add]
      refine Prod.ext rfl (Prod.ext rfl ?_)
      simp only [List.cons_append, List.nil_append]
      congr 2
      apply List.map_congr_left
      intro c _
      simp only [Function.comp]
      exact Prod.ext (by simp only; omega) rfl

end compose

section programs

variable {σ α ι κ β : Type}

theorem Ptr.rename_self (p : Nat) (a : Ptr β) : a.rename p p = a := by
  cases a with
  | outside b => rfl
  | member p' j =>
    simp only [Ptr.rename]
    split
    · next h => rw [h]
    · rfl

end programs

/-! ## The test kernels keep to their own pipeline -/

/-- C12. For every pipeline of `n` stages and every input: if the first `p` stages succeed
one after the other (`y 0` is the input, `y (j + 1)` what stage `j + 1` returns on `y j`)
and either `p = n` or the next stage fails, then one call of `execute` invokes exactly
the stages `1, ..., m`, once each and in the supplied order, where `m = min (p + 1) n` is
the index of the first failing stage, or `n` if none fails; stage 1 is invoked on the
input and every later stage on the pointer its predecessor returned.  After a failure
the result is `nullptr` and the memory is the one the failing stage left; nothing is
retried or substituted. -/
theorem execute_invocation_order {σ α : Type} (ks : List (Kernel σ α)) (x : α) (m : σ)
    (p : Nat) (y : Nat → α × σ) (hp : p ≤ ks.length) (h0 : y 0 = (x, m))
    (hsucc : ∀ j (hj : j < ks.length), j < p →
      (ks[j]).call (y j).1 (y j).2 = (some (y (j + 1)).1, (y (j + 1)).2))
    (hstop : ∀ hlt : p < ks.length, ((ks[p]).call (y p).1 (y p).2).1 = none) :
    ∃ out, execute ks x m = some out ∧
      out.calls = (List.range (min (p + 1) ks.length)).map (fun j => (j, (y j).1)) ∧
      (p = ks.length → out.ret = some (y p).1 ∧ out.mem = (y p).2) ∧
      (∀ hlt : p < ks.length,
        out.ret = none ∧ out.mem = ((ks[p]).call (y p).1 (y p).2).2) := by
  obtain ⟨out, he, hr, hm, hc⟩ := execute_specLoop ks x m
  obtain ⟨h1, h2, h3⟩ := specLoop_stop ks x m p y hp h0 hsucc hstop
  rw [← hr, ← hm] at h2 h3
  rw [← hc] at h1
  exact ⟨out, he, h1, h2, h3⟩

/-- Witness of C12: the run of the test `EXECUTION_FAILURE`, where the first stage
succeeds and the second fails, so exactly stages 1 and 2 are invoked. -/
theorem execute_invocation_order_witness :
    ∃ out, execute (testPipeline 2) Addr.v { v := [2, 1, 4], output_data_ := none } = some out ∧
      out.calls = [(0, Addr.v), (1, Addr.v)] ∧
      (1 = 3 → out.ret = some Addr.v ∧ out.mem = { v := [0, -1, 2], output_data_ := none }) ∧
      (∀ _ : 1 < 3, out.ret = none ∧ out.mem = { v := [0, -1, 2], output_data_ := none }) :=
  execute_invocation_order (testPipeline 2) Addr.v { v := [2, 1, 4], output_data_ := none } 1
    failureRun (by decide) rfl (by decide) (by decide)

/-- C13. The fold of the source refines the loop of the specification: for every stage
list, input and memory, `execute` returns, and its result, the memory it leaves and
the sequence of stage invocations are those of the loop that keeps a current value,
stops with failure at the first failing stage and otherwise advances. -/
theorem execute_refines_specLoop {σ α : Type} (ks : List (Kernel σ α)) (x : α) (m : σ) :
    ∃ out, execute ks x m = some out ∧
      (out.ret, out.mem, out.calls) = specLoop ks 0 x m [] := by
  obtain ⟨out, he, hr, hm, hc⟩ := execute_specLoop ks x m
  exact ⟨out, he, by rw [hr, hm, hc]⟩

/-! ## Null safety and the slot invariant -/

/-- C14. Null-dereference safety of `execute`: for every pipeline, input and memory the
run has no undefined behaviour (no stage is ever invoked through a null slot); slot 0
holds the address of the caller's input; every stage that is invoked is invoked on the
non-null pointer held by its slot; and a stage after the first is only invoked when its
predecessor was invoked too. -/
theorem execute_null_safe {σ α : Type} (ks : List (Kernel σ α)) (x : α) (m : σ) :
    ∃ out, execute ks x m = some out ∧
      out.data_ptrs[0]? = some (some x) ∧
      (∀ c ∈ out.calls, out.data_ptrs[c.1]? = some (some c.2)) ∧
      (∀ c ∈ out.calls, 0 < c.1 → ∃ c' ∈ out.calls, c'.1 + 1 = c.1) := by
  obtain ⟨b, s', hf, hlen, hc, hkeep⟩ := foldAnd_safe ks 0 x
    { mem := m,
      data_ptrs := (List.replicate ((List.range ks.length).length + 1) none).set 0 (some x),
      calls := [] }
    (by simp [List.replicate_succ]) (by simp) (by simp)
  obtain ⟨out, he, hd, hcalls, _, _⟩ :=
    execute_of_foldAnd ks x m b s' hf (by simpa using hlen)
  obtain ⟨out', he', _, _, hc'⟩ := execute_specLoop ks x m
  rw [he] at he'
  cases he'
  refine ⟨out, he, ?_, ?_, ?_⟩
  · rw [hd, hkeep 0 (Nat.le_refl _)]
    simp [List.replicate_succ]
  · rw [hd, hcalls]
    exact hc
  · obtain ⟨n, _, hn⟩ := specLoop_calls_fst ks 0 x m []
    rw [← hc'] at hn
    simp only [List.map_nil, List.nil_append] at hn
    intro c hmem hpos
    have h1 : c.1 ∈ out.calls.map Prod.fst := List.mem_map_of_mem _ hmem
    rw [hn, List.mem_range'_1] at h1
    have h2 : c.1 - 1 ∈ out.calls.map Prod.fst := by
      rw [hn, List.mem_range'_1]
      omega
    obtain ⟨c', hc'mem, hc'eq⟩ := List.mem_map.1 h2
    exact ⟨c', hc'mem, by omega⟩

/-- C18. Slot invariant of `executeImpl`: if the first `p` stages succeed one after the
other (`y 0` is the input, `y (j + 1)` what stage `j + 1` returns on `y j`) and either
`p = n` or the next stage fails, then after the fold the tuple has `n + 1` slots, slot
`j` is non-null exactly when `j ≤ p` (stages `1, ..., j` all succeeded), in which case it
holds the pointer stage `j` returned, every later slot is null, and the returned slot
`n` is null exactly when some stage failed. -/
theorem execute_slot_invariant {σ α : Type} (ks : List (Kernel σ α)) (x : α) (m : σ)
    (p : Nat) (y : Nat → α × σ) (hp : p ≤ ks.length) (h0 : y 0 = (x, m))
    (hsucc : ∀ j (hj : j < ks.length), j < p →
      (ks[j]).call (y j).1 (y j).2 = (some (y (j + 1)).1, (y (j + 1)).2))
    (hstop : ∀ hlt : p < ks.length, ((ks[p]).call (y p).1 (y p).2).1 = none) :
    ∃ out, execute ks x m = some out ∧
      out.data_ptrs.length = ks.length + 1 ∧
      (∀ j, j ≤ ks.length →
        out.data_ptrs[j]? = some (if j ≤ p then some (y j).1 else none)) ∧
      (out.ret = none ↔ p < ks.length) := by
  obtain ⟨b, s', hf, hlen, hslots⟩ := foldAnd_slots ks 0
    { mem := m,
      data_ptrs := (List.replicate ((List.range ks.length).length + 1) none).set 0 (some x),
      calls := [] } p y hp
    (by simp [List.replicate_succ, h0]) (by simp [h0]) (by simp)
    (by intro j hj hjp; simpa using hsucc j hj hjp)
    (by intro hlt; simpa using hstop hlt)
  have hlen' : s'.data_ptrs.length = ks.length + 1 := by simpa using hlen
  obtain ⟨out, he, hd, _, _, hret⟩ := execute_of_foldAnd ks x m b s' hf hlen'
  have hslot : ∀ j, j ≤ ks.length →
      s'.data_ptrs[j]? = some (if j ≤ p then some (y j).1 else none) := by
    intro j hj
    rw [hslots j]
    simp only [List.length_range, initial_slots, Nat.zero_add]
    by_cases h1 : 0 < j ∧ j ≤ p
    · rw [if_pos h1, if_pos h1.2]
    · rw [if_neg h1]
      by_cases h2 : j = p + 1 ∧ p < ks.length
      · rw [if_pos h2, if_neg (by omega)]
      · rw [if_neg h2]
        by_cases h3 : j = 0
        · subst h3
          rw [if_pos rfl, if_pos (Nat.zero_le _), h0]
        · rw [if_neg h3, if_pos hj, if_neg (by omega)]
  refine ⟨out, he, by rw [hd, hlen'], by rw [hd]; exact hslot, ?_⟩
  have hn := hslot ks.length (Nat.le_refl _)
  rw [hret] at hn
  have hn' := Option.some.inj hn
  rw [hn']
  by_cases hpn : ks.length ≤ p
  · rw [if_pos hpn]
    constructor
    · intro h; exact Option.noConfusion h
    · intro h; omega
  · rw [if_neg hpn]
    exact ⟨fun _ => by omega, fun _ => rfl⟩

/-- Witness of C18: in the run of the test `EXECUTION_FAILURE` the first stage succeeds
and the second fails; slots 0 and 1 hold the address of the vector and slots 2 and 3
are null. -/
theorem execute_slot_invariant_witness :
    ∃ out, execute (testPipeline 2) Addr.v { v := [2, 1, 4], output_data_ := none } = some out ∧
      out.data_ptrs.length = 3 + 1 ∧
      (∀ j, j ≤ 3 →
        out.data_ptrs[j]? = some (if j ≤ 1 then some (failureRun j).1 else none)) ∧
      (out.ret = none ↔ 1 < 3) :=
  execute_slot_invariant (testPipeline 2) Addr.v { v := [2, 1, 4], output_data_ := none } 1
    failureRun (by decide) rfl (by decide) (by decide)

/-! ## Construction twice, rollback, concatenation, single stage -/

/-- The pipeline of the tests constructed twice as in the tests and executed: on
`[2, 3, 4]` both instances return a pointer to their own `output_data_`, which holds 3,
and leave `[0, 1, 2]`; on `[2, 1, 4]` both return `nullptr`. -/
theorem testPipeline_constructed_twice_runs :
    (execute (base_subobjects testPipeline.classes 0) (Ptr.outside ())
        { outside := [2, 3, 4],
          pipelines := [testPipeline.braced 2, testPipeline.braced 2] }).map
          (fun out => (out.ret, out.ret.bind out.mem.readInt, out.mem.outside))
      = some (some (Ptr.member 0 2), some 3, [0, 1, 2]) ∧
    (execute (base_subobjects testPipeline.classes 1) (Ptr.outside ())
        { outside := [2, 3, 4],
          pipelines := [testPipeline.braced 2, testPipeline.braced 2] }).map
          (fun out => (out.ret, out.ret.bind out.mem.readInt, out.mem.outside))
      = some (some (Ptr.member 1 2), some 3, [0, 1, 2]) ∧
    (execute (base_subobjects testPipeline.classes 0) (Ptr.outside ())
        { outside := [2, 1, 4],
          pipelines := [testPipeline.braced 2, testPipeline.braced 2] }).map
          (fun out => out.ret)
      = some none ∧
    (execute (base_subobjects testPipeline.classes 1) (Ptr.outside ())
        { outside := [2, 1, 4],
          pipelines := [testPipeline.braced 2, testPipeline.braced 2] }).map
          (fun out => out.ret)
      = some none := by
  exact ⟨by decide, by decide, by decide, by decide⟩

/-- C15. The run of `execute` performs no rollback.  When stage `k` (1-indexed) is the
first to fail, the memory after `execute` is the memory the failing stage left, which
carries every mutation of stages `1, ..., k`.  For the pipeline of the tests the caller's
vector afterwards is the original with `c` subtracted from every element, on success and
on failure alike.  With `c = 2` and `v = [2, 3, 4]` the first call succeeds with 3 and
leaves `[0, 1, 2]`, and a second call on the same objects fails and leaves
`[-2, -1, 0]`. -/
theorem execute_no_rollback :
    (∀ (σ α : Type) (ks : List (Kernel σ α)) (x : α) (m : σ) (k : Nat) (y : Nat → α × σ)
      (_ : 1 ≤ k) (hkn : k ≤ ks.length), y 0 = (x, m) →
      (∀ j (hj : j < ks.length), j + 1 < k →
        (ks[j]).call (y j).1 (y j).2 = (some (y (j + 1)).1, (y (j + 1)).2)) →
      ((ks[k - 1]).call (y (k - 1)).1 (y (k - 1)).2).1 = none →
      ∃ out, execute ks x m = some out ∧ out.ret = none ∧
        out.mem = ((ks[k - 1]).call (y (k - 1)).1 (y (k - 1)).2).2) ∧
    (∀ (c : Int) (v : List Int) (o : Option Int),
      ∃ out, execute (testPipeline c) Addr.v { v := v, output_data_ := o } = some out ∧
        out.mem.v = v.map (fun x => x - c)) ∧
    (∃ out1 out2,
      execute (testPipeline 2) Addr.v { v := [2, 3, 4], output_data_ := none } = some out1 ∧
      out1.ret.bind out1.mem.readInt = some 3 ∧ out1.mem.v = [0, 1, 2] ∧
      execute (testPipeline 2) Addr.v out1.mem = some out2 ∧
      out2.ret = none ∧ out2.mem.v = [-2, -1, 0]) := by
  refine ⟨?_, ?_, ?_⟩
  · intro σ α ks x m k y hk hkn h0 hsucc hfail
    obtain ⟨out, he, hr, hm, _⟩ := execute_specLoop ks x m
    obtain ⟨_, _, h3⟩ := specLoop_stop ks x m (k - 1) y (by omega) h0
      (by intro j hj hjk; exact hsucc j hj (by omega))
      (by intro _; exact hfail)
    obtain ⟨h4, h5⟩ := h3 (by omega)
    exact ⟨out, he, by rw [hr, h4], by rw [hm, h5]⟩
  · intro c v o
    obtain ⟨out, he, _, hm, _⟩ := execute_specLoop (testPipeline c) Addr.v
      { v := v, output_data_ := o }
    refine ⟨out, he, ?_⟩
    by_cases hall : ∀ x ∈ v, c ≤ x
    · rw [hm, specLoop_testPipeline_success c v _ hall]
    · rw [hm, specLoop_testPipeline_failure c v _ hall]
  · obtain ⟨out1, he1, hr1, hm1, _⟩ := execute_specLoop (testPipeline 2) Addr.v
      { v := [2, 3, 4], output_data_ := none }
    rw [specLoop_testPipeline_success 2 [2, 3, 4] none (by decide)] at hr1 hm1
    have hmem : out1.mem = { v := [0, 1, 2], output_data_ := some 3 } := by
      rw [hm1]; decide
    obtain ⟨out2, he2, hr2, hm2, _⟩ := execute_specLoop (testPipeline 2) Addr.v out1.mem
    rw [hmem, specLoop_testPipeline_failure 2 [0, 1, 2] (some 3) (by decide)] at hr2 hm2
    refine ⟨out1, out2, he1, ?_, ?_, he2, hr2, ?_⟩
    · rw [hr1, hmem]; rfl
    · rw [hmem]
    · rw [hm2]; decide

/-- Witness of C15: in the run of the test `EXECUTION_FAILURE` stage 2 is the first to
fail, and the vector keeps the subtraction made by stage 1. -/
theorem execute_no_rollback_witness :
    ∃ out, execute (testPipeline 2) Addr.v { v := [2, 1, 4], output_data_ := none } = some out ∧
      out.ret = none ∧ out.mem = { v := [0, -1, 2], output_data_ := none } :=
  execute_no_rollback.1 Mem Addr (testPipeline 2) Addr.v
    { v := [2, 1, 4], output_data_ := none } 2 failureRun (by decide) (by decide) rfl
    (by decide) (by decide)

/-- C16. Concatenation law: for every prefix `pre` and suffix `suf` and every input,
`execute` of `pre ++ suf` fails where `execute` of `pre` fails (leaving the same memory
and the same invocations), and otherwise gives the result and the memory of `execute` of
`suf` on the pointer and memory that `execute` of `pre` produced, invoking the stages of
`pre` and then those of `suf`. -/
theorem execute_append {σ α : Type} (pre suf : List (Kernel σ α)) (x : α) (m : σ) :
    ∃ o1 o, execute pre x m = some o1 ∧ execute (pre ++ suf) x m = some o ∧
      match o1.ret with
      | none => o.ret = none ∧ o.mem = o1.mem ∧ o.calls = o1.calls
      | some a =>
        ∃ o2, execute suf a o1.mem = some o2 ∧ o.ret = o2.ret ∧ o.mem = o2.mem ∧
          o.calls = o1.calls ++ o2.calls.map (fun c => (c.1 + pre.length, c.2)) := by
  obtain ⟨o1, h1, hr1, hm1, hc1⟩ := execute_specLoop pre x m
  obtain ⟨o, h, hr, hm, hc⟩ := execute_specLoop (pre ++ suf) x m
  refine ⟨o1, o, h1, h, ?_⟩
  rw [specLoop_append] at hr hm hc
  rw [← hr1, ← hm1, ← hc1] at hr hm hc
  rcases hret : o1.ret with _ | a
  · rw [hret] at hr hm hc
    dsimp only at hr hm hc ⊢
    rw [← hr1] at hr
    rw [← hm1] at hm
    rw [← hc1] at hc
    exact ⟨by rw [hr, hret], hm, hc⟩
  · rw [hret] at hr hm hc
    dsimp only at hr hm hc ⊢
    obtain ⟨o2, h2, hr2, hm2, hc2⟩ := execute_specLoop suf a o1.mem
    rw [specLoop_shift] at hr hm hc
    refine ⟨o2, h2, by rw [hr, hr2], by rw [hm, hm2], ?_⟩
    rw [hc, hc2, Nat.zero_add]

end ctes
